import Mathlib

/-!
Verification development for the student-record manager
(`Student_manage_system`: `student.hh/cc`, `system.hh/cc`).

Modelling conventions (shallow embedding):
* `std::string` is modelled as `List Char` (`Str`): a C++ string is a
  finite character sequence; comparisons and searches are character-wise.
* `float` scores are modelled as exact rationals `ℚ`.  All score
  arithmetic in the source (sum, mean, range checks) is embedded exactly;
  IEEE-754 rounding and the 6-significant-digit default `ostream`
  formatting are abstracted away (the embedded printer writes the exact
  decimal expansion, which agrees with the source whenever the value
  needs at most the printed precision).
* `std::unordered_map<std::string, float>` is modelled as an association
  list with pairwise-distinct keys; iteration order in the source is
  unspecified, the embedding fixes insertion order.
* Exceptions (`std::invalid_argument` from the validators, `set_score`,
  and `std::stof`) are modelled with `Option`: `none` = throw.
* A file is modelled as its full character stream (`Str`); an
  unopenable file is `none : Option Str`.
-/

/-- A C++ `std::string`, modelled as its character sequence. -/
abbrev Str := List Char

/-- `isdigit`-style test used by the `\d` regex atoms: `'0' ≤ c ≤ '9'`. -/
def isDigitChar (c : Char) : Bool := 48 ≤ c.toNat && c.toNat ≤ 57

/-- The decimal digit character for `d < 10` (used to print numerals). -/
def digitChar (d : Nat) : Char :=
  match d with
  | 0 => '0' | 1 => '1' | 2 => '2' | 3 => '3' | 4 => '4'
  | 5 => '5' | 6 => '6' | 7 => '7' | 8 => '8' | 9 => '9'
  | _ => '*'

/-- Numeric value of a decimal digit character. -/
def charDigitVal (c : Char) : Nat := c.toNat - 48

/-- Fuel-driven worker for the decimal-digit expansion (each step divides
by 10, so `n + 1` fuel always suffices; structural recursion on the fuel
keeps the definition kernel-evaluable). -/
def natDigitsRevFuel : Nat → Nat → List Nat
  | 0, n => [n]
  | fuel + 1, n => if n < 10 then [n] else n % 10 :: natDigitsRevFuel fuel (n / 10)

/-- Little-endian decimal digits of a natural number (always nonempty). -/
def natDigitsRev (n : Nat) : List Nat := natDigitsRevFuel (n + 1) n

theorem natDigitsRevFuel_congr : ∀ (f1 f2 n : Nat), n < f1 → n < f2 →
    natDigitsRevFuel f1 n = natDigitsRevFuel f2 n := by
  intro f1
  induction f1 with
  | zero => intro f2 n h1 _; omega
  | succ f1 ih =>
    intro f2 n h1 h2
    cases f2 with
    | zero => omega
    | succ f2 =>
      simp only [natDigitsRevFuel]
      by_cases hn : n < 10
      · simp [hn]
      · rw [if_neg hn, if_neg hn, ih f2 (n / 10) (by omega) (by omega)]

/-- The one-step unfolding of the digit expansion. -/
theorem natDigitsRev_eq (n : Nat) :
    natDigitsRev n = if n < 10 then [n] else n % 10 :: natDigitsRev (n / 10) := by
  by_cases hn : n < 10
  · rw [if_pos hn]
    unfold natDigitsRev
    simp only [natDigitsRevFuel]
    rw [if_pos hn]
  · rw [if_neg hn]
    show natDigitsRevFuel (n + 1) n = n % 10 :: natDigitsRevFuel (n / 10 + 1) (n / 10)
    rw [show natDigitsRevFuel (n + 1) n
      = if n < 10 then [n] else n % 10 :: natDigitsRevFuel n (n / 10) from rfl]
    rw [if_neg hn, natDigitsRevFuel_congr n (n / 10 + 1) (n / 10) (by omega) (by omega)]

/-- Decimal numeral of a natural number, as written by `operator<<`. -/
def natToStr (n : Nat) : Str := ((natDigitsRev n).reverse).map digitChar

/-- Value of a big-endian digit string (the accumulating loop of `stof`). -/
def digitsVal (s : Str) : Nat := s.foldl (fun a c => 10 * a + charDigitVal c) 0

/-- Value of a little-endian digit list. -/
def revDigitsVal : List Nat → Nat
  | [] => 0
  | d :: ds => d + 10 * revDigitsVal ds

/-- Character comparison as performed by `operator<` on `char`
(the source compares code units; the embedding compares scalar values,
which induces the same order on the texts involved). -/
def charLt (a b : Char) : Bool := a.toNat < b.toNat

/-- Lexicographic strict order on strings: `std::string::operator<`. -/
def lexLt : Str → Str → Bool
  | _, [] => false
  | [], _ :: _ => true
  | a :: as, b :: bs =>
    if charLt a b then true
    else if charLt b a then false
    else lexLt as bs

theorem charDigitVal_digitChar {d : Nat} (h : d < 10) :
    charDigitVal (digitChar d) = d := by
  interval_cases d <;> rfl

theorem isDigitChar_digitChar {d : Nat} (h : d < 10) :
    isDigitChar (digitChar d) = true := by
  interval_cases d <;> rfl

theorem natDigitsRev_ne_nil (n : Nat) : natDigitsRev n ≠ [] := by
  rw [natDigitsRev_eq]
  split <;> simp

theorem natDigitsRev_lt (n : Nat) : ∀ d ∈ natDigitsRev n, d < 10 := by
  induction n using Nat.strong_induction_on with
  | _ n ih =>
    rw [natDigitsRev_eq]
    split
    · intro d hd; simp at hd; omega
    · intro d hd
      simp only [List.mem_cons] at hd
      rcases hd with h | h
      · omega
      · exact ih (n / 10) (Nat.div_lt_self (by omega) (by omega)) d h

theorem revDigitsVal_natDigitsRev (n : Nat) :
    revDigitsVal (natDigitsRev n) = n := by
  induction n using Nat.strong_induction_on with
  | _ n ih =>
    rw [natDigitsRev_eq]
    split
    · simp [revDigitsVal]
    · rw [revDigitsVal, ih (n / 10) (Nat.div_lt_self (by omega) (by omega))]
      omega

theorem foldl_reverse_digits (l : List Nat) (acc : Nat) (hl : ∀ d ∈ l, d < 10) :
    (l.reverse.map digitChar).foldl (fun a c => 10 * a + charDigitVal c) acc =
      acc * 10 ^ l.length + revDigitsVal l := by
  induction l generalizing acc with
  | nil => simp [revDigitsVal]
  | cons d ds ih =>
    have hd : d < 10 := hl d (by simp)
    simp only [List.reverse_cons, List.map_append, List.foldl_append, List.map_cons,
      List.map_nil, List.foldl_cons, List.foldl_nil, List.length_cons]
    rw [ih acc (fun x hx => hl x (List.mem_cons_of_mem _ hx)),
      charDigitVal_digitChar hd, revDigitsVal]
    ring

theorem digitsVal_natToStr (n : Nat) : digitsVal (natToStr n) = n := by
  unfold digitsVal natToStr
  rw [foldl_reverse_digits _ _ (natDigitsRev_lt n)]
  simpa using revDigitsVal_natDigitsRev n

theorem natToStr_ne_nil (n : Nat) : natToStr n ≠ [] := by
  unfold natToStr
  simp [natDigitsRev_ne_nil]

theorem natToStr_all_digits (n : Nat) : ∀ c ∈ natToStr n, isDigitChar c = true := by
  intro c hc
  unfold natToStr at hc
  simp only [List.mem_map, List.mem_reverse] at hc
  obtain ⟨d, hd, rfl⟩ := hc
  exact isDigitChar_digitChar (natDigitsRev_lt n d hd)

theorem natDigitsRev_length_le {n k : Nat} (hk : 1 ≤ k) (h : n < 10 ^ k) :
    (natDigitsRev n).length ≤ k := by
  induction n using Nat.strong_induction_on generalizing k with
  | _ n ih =>
    rw [natDigitsRev_eq]
    split
    · simpa using hk
    · rename_i h10
      have hk2 : 2 ≤ k := by
        by_contra hc
        interval_cases k
        omega
      have : n / 10 < 10 ^ (k - 1) := by
        have hp : 10 ^ k = 10 ^ (k - 1) * 10 := by
          have : k - 1 + 1 = k := by omega
          calc 10 ^ k = 10 ^ (k - 1 + 1) := by rw [this]
            _ = 10 ^ (k - 1) * 10 := by rw [pow_succ]
        omega
      have := ih (n / 10) (Nat.div_lt_self (by omega) (by omega)) (k := k - 1)
        (by omega) this
      simp only [List.length_cons]
      omega

/-- Leading zeros do not change the value of a digit string. -/
theorem digitsVal_replicate_zero (k : Nat) (s : Str) :
    digitsVal (List.replicate k '0' ++ s) = digitsVal s := by
  induction k with
  | zero => simp
  | succ k ih =>
    unfold digitsVal at ih ⊢
    simpa [List.replicate_succ, charDigitVal] using ih

/-- Least `k < 200` with `d ∣ 10 ^ k`.  Every `float` value has a
denominator `2 ^ a` with `a ≤ 149`, so for every score reachable in the
source this search succeeds and yields the length of its exact decimal
fraction. -/
def decDigits (d : Nat) : Option Nat :=
  (List.range 200).find? (fun k => 10 ^ k % d == 0)

/-- Pad a digit string on the left with zeros to width `k`. -/
def padZeros (k : Nat) (s : Str) : Str := List.replicate (k - s.length) '0' ++ s

/-- Number of decimal digits of `m` (1 for `m = 0`). -/
def numDigits (m : Nat) : Nat := (natDigitsRev m).length

/-- Drop the last `t` digits of `m`, rounding to nearest; an exact
halfway case rounds to the even neighbour (printf-family formatting
rounds the exact decimal expansion under the default round-to-nearest
mode, ties to even).  Only used with `t ≥ 1`. -/
def roundHalfEven (m t : Nat) : Nat :=
  let q := m / 10 ^ t
  let r := m % 10 ^ t
  let half := 5 * 10 ^ t / 10
  if half < r then q + 1
  else if r < half then q
  else if q % 2 = 0 then q else q + 1

/-- Strip trailing zero digits of `r`, counting them onto `t` (bounded
fuel keeps it structural; 7 suffices for the ≤ 7-digit inputs used). -/
def stripZeros : Nat → Nat × Nat → Nat × Nat
  | 0, p => p
  | fuel + 1, (r, t) =>
    if r % 10 = 0 ∧ r ≠ 0 then stripZeros fuel (r / 10, t + 1) else (r, t)

/-- Fixed-notation text of the value `m / 10 ^ k`: the integer part,
then (for `k ≥ 1`) a point and exactly `k` fraction digits. -/
def fixedForm (m k : Nat) : Str :=
  if k = 0 then natToStr m
  else natToStr (m / 10 ^ k) ++ '.' :: padZeros k (natToStr (m % 10 ^ k))

/-- Scientific-notation text of the value `m / 10 ^ k` (with `10 ∤ m`):
mantissa `d.dd…`, then `e`, a sign and a two-digit-minimum exponent, as
`%g` writes it. -/
def sciForm (m k : Nat) : Str :=
  natToStr (m / 10 ^ (numDigits m - 1))
    ++ (if m % 10 ^ (numDigits m - 1) = 0 then []
        else '.' :: padZeros (numDigits m - 1) (natToStr (m % 10 ^ (numDigits m - 1))))
    ++ 'e' :: (if ((numDigits m : Int) - 1 - (k : Int)) < 0 then
          '-' :: padZeros 2 (natToStr ((numDigits m : Int) - 1 - (k : Int)).natAbs)
        else '+' :: padZeros 2 (natToStr ((numDigits m : Int) - 1 - (k : Int)).natAbs))

/-- Rendering of a value `r / 10 ^ (k - t)` after rounding (`r` is the
rounded significand, `t` the count of dropped-plus-stripped digits):
an integer when the point falls at or past the end, otherwise fixed or
scientific notation by the decimal-exponent rule of `%g`. -/
def roundedForm (r t k : Nat) : Str :=
  if k ≤ t then natToStr (r * 10 ^ (t - k))
  else if k ≤ numDigits r + t + 3 then fixedForm r (k - t)
  else sciForm r (k - t)

/-- `%g`-style rendering (default `ostream` float formatting, precision
6) of the nonnegative value `m / 10 ^ k`, where `k` is the least
exponent making the fraction exact (so `10 ∤ m` when `k ≥ 1`): at most
6 significant digits, rounded to nearest (ties to even), trailing zeros
stripped, fixed notation when the decimal exponent is at least −4 and
scientific notation otherwise.  (Scores lie in [0, 100], so the large
`exponent ≥ 6` scientific branch of `%g` is unreachable and not
modelled.) -/
def scoreDigitsForm (m k : Nat) : Str :=
  if m = 0 then ['0']
  else if numDigits m ≤ 6 then
    if k ≤ numDigits m + 3 then fixedForm m k else sciForm m k
  else
    roundedForm
      (stripZeros 7 (roundHalfEven m (numDigits m - 6), numDigits m - 6)).1
      (stripZeros 7 (roundHalfEven m (numDigits m - 6), numDigits m - 6)).2 k

/-- The text `file << score` writes for a score: the value's exact
decimal fraction (scale `k` from `decDigits`, numerator scaled to
`m / 10 ^ k`) rendered at the default stream precision of 6 significant
digits by `scoreDigitsForm`.  On values that need more digits the
program loses precision — exactly as modelled by the rounding branch. -/
def scoreToString (q : ℚ) : Str :=
  match decDigits q.den with
  | none => ['0']
  | some k => scoreDigitsForm (q.num.toNat * (10 ^ k / q.den)) k

/-- A score value the writer renders exactly: its denominator divides a
power of ten, its scaled numerator fits in 6 significant digits, and
its decimal exponent is at least −4 (fixed notation).  Every score a
user enters with at most 6 significant digits is such a value. -/
def fitsSixSig (q : ℚ) : Bool :=
  match decDigits q.den with
  | none => false
  | some k =>
    let m := q.num.toNat * (10 ^ k / q.den)
    m == 0 || (decide (numDigits m ≤ 6) && decide (k ≤ numDigits m + 3))

/-- `isspace` characters skipped by `std::stof` before the number. -/
def isSpaceChar (c : Char) : Bool :=
  c == ' ' || c == '\t' || c == '\n' || c == '\x0b' || c == '\x0c' || c == '\r'

/-- Optional sign handling of `std::stof`. -/
def stripSign (s : Str) : Bool × Str :=
  match s with
  | [] => (false, [])
  | c :: t => if c = '-' then (true, t) else if c = '+' then (false, t) else (false, c :: t)

/-- The optional exponent part of `std::stof`: `e`/`E`, an optional
sign and digits; the result is the sign of the exponent and its
magnitude (so the value is scaled by `10 ^ ±magnitude`); if the digits
are missing the exponent is not consumed and the scale is `10 ^ 0`. -/
def parseExpScale (s : Str) : Bool × Nat :=
  match s with
  | [] => (false, 0)
  | c :: t =>
    if c = 'e' ∨ c = 'E' then
      let ns := stripSign t
      let ds := ns.2.takeWhile isDigitChar
      if ds.isEmpty then (false, 0)
      else (ns.1, digitsVal ds)
    else (false, 0)

/-- Model of `std::stof`: skip leading whitespace, optional sign,
integer digits, optional `'.'` and fraction digits, optional exponent;
fails (throws `std::invalid_argument`) when no digit is found; trailing
characters are ignored.  The value `(intpart.fracpart) * 10 ^ ±exp` is
assembled as a single normalized fraction `mkRat`.  (The
`std::out_of_range` throw on magnitudes beyond `float` is not
modelled: score-entry parsing never influences whether a line is
accepted, and such inputs abort the source process rather than produce
any roster.) -/
def parseScore (s : Str) : Option ℚ :=
  let ns := stripSign (s.dropWhile isSpaceChar)
  let ip := ns.2.takeWhile isDigitChar
  let r1 := ns.2.dropWhile isDigitChar
  let fpr : Str × Str :=
    match r1 with
    | [] => ([], [])
    | c :: t => if c = '.' then (t.takeWhile isDigitChar, t.dropWhile isDigitChar)
                else ([], r1)
  if ip.isEmpty && fpr.1.isEmpty then none
  else
    let e := parseExpScale fpr.2
    let N : Nat := digitsVal ip * 10 ^ fpr.1.length + digitsVal fpr.1
    let v : ℚ :=
      if e.1 then mkRat N (10 ^ fpr.1.length * 10 ^ e.2)
      else mkRat (N * 10 ^ e.2) (10 ^ fpr.1.length)
    some (if ns.1 then -v else v)

theorem takeWhile_append_of_stop {p : Char → Bool} {f r : Str} {y : Char}
    (hf : ∀ c ∈ f, p c = true) (hy : p y = false) :
    ((f ++ y :: r).takeWhile p) = f := by
  induction f with
  | nil => simp [List.takeWhile_cons, hy]
  | cons a as ih =>
    have ha : p a = true := hf a (by simp)
    simp only [List.cons_append, List.takeWhile_cons, ha, if_true]
    rw [ih (fun c hc => hf c (List.mem_cons_of_mem _ hc))]

theorem dropWhile_append_of_stop {p : Char → Bool} {f r : Str} {y : Char}
    (hf : ∀ c ∈ f, p c = true) (hy : p y = false) :
    ((f ++ y :: r).dropWhile p) = y :: r := by
  induction f with
  | nil => simp [List.dropWhile_cons, hy]
  | cons a as ih =>
    have ha : p a = true := hf a (by simp)
    simp only [List.cons_append, List.dropWhile_cons, ha, if_true]
    exact ih (fun c hc => hf c (List.mem_cons_of_mem _ hc))

theorem takeWhile_of_all {p : Char → Bool} {s : Str} (h : ∀ c ∈ s, p c = true) :
    s.takeWhile p = s := by
  induction s with
  | nil => rfl
  | cons a as ih =>
    simp only [List.takeWhile_cons, h a (by simp), if_true]
    rw [ih (fun c hc => h c (List.mem_cons_of_mem _ hc))]

theorem dropWhile_of_all {p : Char → Bool} {s : Str} (h : ∀ c ∈ s, p c = true) :
    s.dropWhile p = [] := by
  induction s with
  | nil => rfl
  | cons a as ih =>
    simp only [List.dropWhile_cons, h a (by simp), if_true]
    exact ih (fun c hc => h c (List.mem_cons_of_mem _ hc))

theorem stripSign_of_head_digit {c : Char} {t : Str} (h : isDigitChar c = true) :
    stripSign (c :: t) = (false, c :: t) := by
  have h1 : ¬ c = '-' := by
    intro e; subst e; exact absurd h (by decide)
  have h2 : ¬ c = '+' := by
    intro e; subst e; exact absurd h (by decide)
  simp [stripSign, h1, h2]

theorem isSpaceChar_eq_false_of_digit {c : Char} (h : isDigitChar c = true) :
    isSpaceChar c = false := by
  unfold isDigitChar at h
  simp only [Bool.and_eq_true, decide_eq_true_eq] at h
  unfold isSpaceChar
  simp only [Bool.or_eq_false_iff, beq_eq_false_iff_ne, ne_eq]
  refine ⟨⟨⟨⟨⟨?_, ?_⟩, ?_⟩, ?_⟩, ?_⟩, ?_⟩ <;>
    · intro e
      subst e
      exact absurd h (by decide)

theorem dropWhile_cons_false {p : Char → Bool} {c : Char} {t : Str}
    (h : p c = false) : (c :: t).dropWhile p = c :: t := by
  simp [List.dropWhile_cons, h]

theorem padZeros_all_digits {k : Nat} {s : Str} (h : ∀ c ∈ s, isDigitChar c = true) :
    ∀ c ∈ padZeros k s, isDigitChar c = true := by
  intro c hc
  unfold padZeros at hc
  rcases List.mem_append.mp hc with hz | hs
  · have := List.eq_of_mem_replicate hz
    subst this; decide
  · exact h c hs

theorem padZeros_length {k : Nat} {s : Str} (h : s.length ≤ k) :
    (padZeros k s).length = k := by
  unfold padZeros
  simp only [List.length_append, List.length_replicate]
  omega

theorem natToStr_length_le {b K : Nat} (hK : 1 ≤ K) (hb : b < 10 ^ K) :
    (natToStr b).length ≤ K := by
  unfold natToStr
  simpa using natDigitsRev_length_le hK hb

/-- `stof` recovers a natural number from its printed numeral. -/
theorem parseScore_natToStr (n : Nat) : parseScore (natToStr n) = some (n : ℚ) := by
  obtain ⟨c, cs, hcc⟩ := List.exists_cons_of_ne_nil (natToStr_ne_nil n)
  have hdig := natToStr_all_digits n
  have hc : isDigitChar c = true := hdig c (by rw [hcc]; simp)
  unfold parseScore
  rw [hcc, dropWhile_cons_false (isSpaceChar_eq_false_of_digit hc),
    stripSign_of_head_digit hc, ← hcc]
  simp only
  rw [takeWhile_of_all hdig, dropWhile_of_all hdig]
  simp only [List.isEmpty_nil, Bool.and_true]
  rw [if_neg (by simp [hcc])]
  have h0 : digitsVal ([] : Str) = 0 := rfl
  have hpe : parseExpScale ([] : Str) = (false, 0) := rfl
  simp [digitsVal_natToStr, h0, hpe, Rat.mkRat_eq_div]

/-- `stof` recovers `a + b / 10 ^ K` from `"a.b"` with `b` padded to
width `K`. -/
theorem parseScore_decimal (a b K : Nat) (hK : 1 ≤ K) (hb : b < 10 ^ K) :
    parseScore (natToStr a ++ '.' :: padZeros K (natToStr b)) =
      some ((a : ℚ) + (b : ℚ) / (10 : ℚ) ^ K) := by
  obtain ⟨c, cs, hcc⟩ := List.exists_cons_of_ne_nil (natToStr_ne_nil a)
  have hdig := natToStr_all_digits a
  have hc : isDigitChar c = true := hdig c (by rw [hcc]; simp)
  have hdot : isDigitChar '.' = false := by decide
  have hpad : ∀ x ∈ padZeros K (natToStr b), isDigitChar x = true :=
    padZeros_all_digits (natToStr_all_digits b)
  unfold parseScore
  rw [hcc, List.cons_append, dropWhile_cons_false (isSpaceChar_eq_false_of_digit hc),
    stripSign_of_head_digit hc, ← List.cons_append, ← hcc]
  simp only
  rw [takeWhile_append_of_stop hdig hdot, dropWhile_append_of_stop hdig hdot]
  have hlen : (padZeros K (natToStr b)).length = K :=
    padZeros_length (natToStr_length_le hK hb)
  have hdv : digitsVal (padZeros K (natToStr b)) = b := by
    unfold padZeros
    rw [digitsVal_replicate_zero, digitsVal_natToStr]
  have hne : (natToStr a).isEmpty = false := by rw [hcc]; rfl
  have hpe : parseExpScale ([] : Str) = (false, 0) := rfl
  simp [hne, digitsVal_natToStr, takeWhile_of_all hpad, dropWhile_of_all hpad,
    hdv, hlen, hpe, Rat.mkRat_eq_div]
  field_simp

/-- Composing the embedded writer and reader of a single score is the
identity on every nonnegative value the writer renders exactly: at most
6 significant digits, printed in fixed notation. -/
theorem parseScore_scoreToString (q : ℚ) (h0 : 0 ≤ q)
    (hfit : fitsSixSig q = true) :
    parseScore (scoreToString q) = some q := by
  unfold fitsSixSig at hfit
  cases hk : decDigits q.den with
  | none => rw [hk] at hfit; exact absurd hfit (by simp)
  | some k =>
    rw [hk] at hfit
    simp only [Bool.or_eq_true, beq_iff_eq, Bool.and_eq_true, decide_eq_true_eq] at hfit
    have hdvd : q.den ∣ 10 ^ k := by
      have := List.find?_some hk
      simp only [beq_iff_eq] at this
      exact Nat.dvd_of_mod_eq_zero this
    have hnum : (q.num.toNat : ℤ) = q.num := Int.toNat_of_nonneg (Rat.num_nonneg.mpr h0)
    have hden0 : q.den ≠ 0 := q.den_nz
    unfold scoreToString
    rw [hk]
    simp only
    set m := q.num.toNat * (10 ^ k / q.den) with hm
    by_cases hm0 : m = 0
    · have hq0 : q = 0 := by
        have hme : q.num.toNat * (10 ^ k / q.den) = 0 := by rw [← hm]; exact hm0
        have hdivpos : 0 < 10 ^ k / q.den :=
          Nat.div_pos (Nat.le_of_dvd (Nat.pos_pow_of_pos k (by omega)) hdvd)
            (Nat.pos_of_ne_zero hden0)
        have ht0 : q.num.toNat = 0 := by
          rcases Nat.mul_eq_zero.mp hme with h | h
          · exact h
          · omega
        have hnum0 : q.num = 0 := by omega
        exact Rat.num_eq_zero.mp hnum0
      rw [hm0]
      rw [show scoreDigitsForm 0 k = ['0'] from by unfold scoreDigitsForm; simp]
      rw [show parseScore ['0'] = some (0 : ℚ) from by decide]
      rw [hq0]
    · have hDX : numDigits m ≤ 6 ∧ k ≤ numDigits m + 3 := by
        rcases hfit with h | h
        · exact absurd h hm0
        · exact h
      rw [show scoreDigitsForm m k = fixedForm m k from by
        unfold scoreDigitsForm
        rw [if_neg hm0, if_pos hDX.1, if_pos hDX.2]]
      unfold fixedForm
      by_cases hk0 : k = 0
      · rw [if_pos hk0, parseScore_natToStr]
        have hden1 : q.den = 1 := by
          have hd1 : q.den ∣ 1 := by
            have hh := hdvd
            rw [hk0] at hh
            simpa using hh
          exact Nat.eq_one_of_dvd_one hd1
        have hm1 : m = q.num.toNat := by
          rw [hm, hk0, hden1]
          simp
        congr 1
        rw [hm1]
        have h1 : ((q.num.toNat : ℕ) : ℚ) = (q.num : ℚ) := by exact_mod_cast hnum
        rw [h1, (Rat.den_eq_one_iff q).mp hden1]
      · rw [if_neg hk0]
        have h10 : (0 : ℕ) < 10 ^ k := Nat.pos_pow_of_pos k (by omega)
        rw [parseScore_decimal (m / 10 ^ k) (m % 10 ^ k) k (by omega) (Nat.mod_lt _ h10)]
        congr 1
        have hmden : m * q.den = q.num.toNat * 10 ^ k := by
          rw [hm, mul_assoc, Nat.div_mul_cancel hdvd]
        have hq10 : (10 : ℚ) ^ k ≠ 0 := by positivity
        have hqden : ((q.den : ℕ) : ℚ) ≠ 0 := by exact_mod_cast hden0
        have h2 : ((10 : ℚ) ^ k) * ((m / 10 ^ k : ℕ) : ℚ) + ((m % 10 ^ k : ℕ) : ℚ)
            = (m : ℚ) := by
          exact_mod_cast congrArg (fun x : ℕ => (x : ℚ)) (Nat.div_add_mod m (10 ^ k))
        have hsplit : ((m / 10 ^ k : ℕ) : ℚ) + ((m % 10 ^ k : ℕ) : ℚ) / (10 : ℚ) ^ k
            = (m : ℚ) / (10 : ℚ) ^ k := by
          rw [eq_div_iff hq10, add_mul, div_mul_cancel₀ _ hq10]
          linear_combination h2
        rw [hsplit]
        rw [div_eq_iff hq10]
        have hcast : (m : ℚ) * (q.den : ℚ) = (q.num.toNat : ℚ) * ((10 : ℚ) ^ k) := by
          exact_mod_cast congrArg (fun x : ℕ => (x : ℚ)) hmden
        have hnumq : ((q.num.toNat : ℕ) : ℚ) = (q.num : ℚ) := by
          exact_mod_cast hnum
        have hqd : q * (q.den : ℚ) = (q.num : ℚ) := by
          nth_rewrite 1 [← Rat.num_div_den q]
          exact div_mul_cancel₀ _ hqden
        apply mul_right_cancel₀ hqden
        rw [hcast, hnumq, mul_right_comm, hqd]

theorem lexLt_asymm : ∀ (a b : Str), lexLt a b = true → lexLt b a = false := by
  intro a
  induction a with
  | nil =>
    intro b h
    cases b <;> simp [lexLt] at h ⊢
  | cons x xs ih =>
    intro b h
    cases b with
    | nil => simp [lexLt] at h
    | cons y ys =>
      unfold lexLt at h ⊢
      by_cases h1 : charLt x y = true
      · have h2 : charLt y x = false := by
          simp [charLt] at h1 ⊢
          omega
        simp [h1, h2]
      · by_cases h2 : charLt y x = true
        · simp [h1, h2] at h
        · simp only [h1, h2, Bool.false_eq_true, if_false] at h ⊢
          exact ih ys h

theorem lexLt_le_trans : ∀ (a b c : Str),
    lexLt b a = false → lexLt c b = false → lexLt c a = false := by
  intro a
  induction a with
  | nil =>
    intro b c _ _
    cases c <;> simp [lexLt]
  | cons x xs ih =>
    intro b c hba hcb
    cases b with
    | nil => simp [lexLt] at hba
    | cons y ys =>
      cases c with
      | nil => simp [lexLt] at hcb
      | cons z zs =>
        unfold lexLt at hba hcb ⊢
        by_cases h1 : charLt y x = true
        · simp [h1] at hba
        · by_cases h2 : charLt z y = true
          · simp [h2] at hcb
          · have hyx : ¬ y.toNat < x.toNat := by simpa [charLt] using h1
            have hzy : ¬ z.toNat < y.toNat := by simpa [charLt] using h2
            have hzx : charLt z x = false := by
              simp [charLt]
              omega
            simp only [h1, h2, hzx, Bool.false_eq_true, if_false] at hba hcb ⊢
            by_cases h3 : charLt x z = true
            · simp [h3]
            · have hxz : ¬ x.toNat < z.toNat := by simpa [charLt] using h3
              have hxy : charLt x y = false := by
                simp [charLt]
                omega
              have hyz : charLt y z = false := by
                simp [charLt]
                omega
              simp only [h3, hxy, hyz, Bool.false_eq_true, if_false] at hba hcb ⊢
              exact ih ys zs hba hcb

/-- One `std::getline(stream, out, d)` call on the remaining stream `s`:
`none` models a failed read (no character extracted), otherwise the
extracted text and the stream remainder (the delimiter is consumed and
discarded). -/
def getlineDelim (d : Char) (s : Str) : Option (Str × Str) :=
  match s with
  | [] => none
  | _ =>
    some (s.takeWhile (fun c => !(c == d)),
      match s.dropWhile (fun c => !(c == d)) with
      | [] => []
      | _ :: r => r)

theorem getlineDelim_length {d : Char} {s f r : Str}
    (h : getlineDelim d s = some (f, r)) : r.length < s.length := by
  unfold getlineDelim at h
  cases s with
  | nil => simp at h
  | cons a as =>
    simp only [Option.some.injEq, Prod.mk.injEq] at h
    obtain ⟨hf, hr⟩ := h
    have hsplit := List.takeWhile_append_dropWhile
      (p := fun c => !(c == d)) (l := a :: as)
    rcases hdrop : (a :: as).dropWhile (fun c => !(c == d)) with _ | ⟨b, bs⟩
    · rw [hdrop] at hr
      subst hr
      simp
    · rw [hdrop] at hr
      subst hr
      have hlen : ((a :: as).takeWhile (fun c => !(c == d))).length + (b :: bs).length
          = (a :: as).length := by
        conv_rhs => rw [← hsplit]
        rw [hdrop, List.length_append]
      simp only [List.length_cons] at hlen ⊢
      omega

/-- Fuel-driven worker for the repeated-`getline` loop (each successful
read strictly shortens the stream, so `length + 1` fuel always
suffices; structural recursion on the fuel keeps the definition
kernel-evaluable). -/
def getlineAllFuel (d : Char) : Nat → Str → List Str
  | 0, _ => []
  | fuel + 1, s =>
    match getlineDelim d s with
    | none => []
    | some (f, r) => f :: getlineAllFuel d fuel r

/-- Repeated `getline` with delimiter `d` until the read fails: the loop
used by the source both for lines (`'\n'`) and score entries (`';'`). -/
def getlineAll (d : Char) (s : Str) : List Str := getlineAllFuel d (s.length + 1) s

theorem getlineAllFuel_congr (d : Char) :
    ∀ (f1 f2 : Nat) (s : Str), s.length < f1 → s.length < f2 →
      getlineAllFuel d f1 s = getlineAllFuel d f2 s := by
  intro f1
  induction f1 with
  | zero => intro f2 s h1 _; omega
  | succ f1 ih =>
    intro f2 s h1 h2
    cases f2 with
    | zero => omega
    | succ f2 =>
      simp only [getlineAllFuel]
      cases hg : getlineDelim d s with
      | none => rfl
      | some p =>
        obtain ⟨f, r⟩ := p
        have hr := getlineDelim_length hg
        simp only
        rw [ih f2 r (by omega) (by omega)]

/-- The one-step unfolding of the `getline` loop. -/
theorem getlineAll_eq (d : Char) (s : Str) :
    getlineAll d s
      = match getlineDelim d s with
        | none => []
        | some (f, r) => f :: getlineAll d r := by
  cases hg : getlineDelim d s with
  | none =>
    unfold getlineAll
    simp only [getlineAllFuel, hg]
  | some p =>
    obtain ⟨f, r⟩ := p
    have hr := getlineDelim_length hg
    simp only
    unfold getlineAll
    rw [show getlineAllFuel d (s.length + 1) s
      = match getlineDelim d s with
        | none => []
        | some (f2, r2) => f2 :: getlineAllFuel d s.length r2 from rfl, hg]
    simp only
    rw [getlineAllFuel_congr d s.length (r.length + 1) r (by omega) (by omega)]

/-- Reading up to a delimiter recovers a delimiter-free prefix exactly. -/
theorem getlineDelim_append {d : Char} {f r : Str} (hf : d ∉ f) :
    getlineDelim d (f ++ d :: r) = some (f, r) := by
  have htake : (f ++ d :: r).takeWhile (fun c => !(c == d)) = f :=
    takeWhile_append_of_stop (fun c hc => by
        simp only [Bool.not_eq_true', beq_eq_false_iff_ne, ne_eq]
        intro e; subst e; exact hf hc)
      (by simp)
  have hdrop : (f ++ d :: r).dropWhile (fun c => !(c == d)) = d :: r :=
    dropWhile_append_of_stop (fun c hc => by
        simp only [Bool.not_eq_true', beq_eq_false_iff_ne, ne_eq]
        intro e; subst e; exact hf hc)
      (by simp)
  unfold getlineDelim
  cases hff : f ++ d :: r with
  | nil => exact absurd hff (by simp)
  | cons a as =>
    rw [hff] at htake hdrop
    rw [htake, hdrop]

/-- Reading a delimiter-free, nonempty tail consumes the whole stream. -/
theorem getlineDelim_last {d : Char} {s : Str} (hs : s ≠ []) (hd : d ∉ s) :
    getlineDelim d s = some (s, []) := by
  have htake : s.takeWhile (fun c => !(c == d)) = s :=
    takeWhile_of_all (fun c hc => by
      simp only [Bool.not_eq_true', beq_eq_false_iff_ne, ne_eq]
      intro e; subst e; exact hd hc)
  have hdrop : s.dropWhile (fun c => !(c == d)) = [] :=
    dropWhile_of_all (fun c hc => by
      simp only [Bool.not_eq_true', beq_eq_false_iff_ne, ne_eq]
      intro e; subst e; exact hd hc)
  unfold getlineDelim
  cases hss : s with
  | nil => exact absurd hss hs
  | cons a as =>
    rw [hss] at htake hdrop
    rw [htake, hdrop]

theorem getlineAll_nil (d : Char) : getlineAll d [] = [] := by
  rw [getlineAll_eq]
  simp [getlineDelim]

/-- Splitting a terminator-style join (`x₁d x₂d … xₙd`) recovers the
pieces, provided no piece contains the delimiter. -/
theorem getlineAll_join_term (d : Char) :
    ∀ (ls : List Str), (∀ l ∈ ls, d ∉ l) →
      getlineAll d (List.flatten (ls.map (fun l => l ++ [d]))) = ls := by
  intro ls
  induction ls with
  | nil => intro _; simpa using getlineAll_nil d
  | cons l rest ih =>
    intro h
    have hjoin : List.flatten ((l :: rest).map (fun l => l ++ [d]))
        = l ++ d :: List.flatten (rest.map (fun l => l ++ [d])) := by
      simp
    rw [hjoin, getlineAll_eq, getlineDelim_append (h l (by simp))]
    simp only
    rw [ih (fun x hx => h x (List.mem_cons_of_mem _ hx))]

/-- Separator-style join (`x₁ d x₂ d … d xₙ`), as written between score
entries. -/
def joinSep (d : Char) : List Str → Str
  | [] => []
  | [x] => x
  | x :: xs => x ++ d :: joinSep d xs

/-- Splitting a separator-style join recovers the pieces, provided each
piece is nonempty and delimiter-free. -/
theorem getlineAll_join_sep (d : Char) :
    ∀ (ls : List Str), (∀ l ∈ ls, l ≠ [] ∧ d ∉ l) →
      getlineAll d (joinSep d ls) = ls := by
  intro ls
  induction ls with
  | nil => intro _; simpa using getlineAll_nil d
  | cons l rest ih =>
    intro h
    have hl := h l (by simp)
    cases rest with
    | nil =>
      rw [show joinSep d [l] = l from rfl, getlineAll_eq, getlineDelim_last hl.1 hl.2]
      simp [getlineAll_nil]
    | cons m ms =>
      rw [show joinSep d (l :: m :: ms) = l ++ d :: joinSep d (m :: ms) from rfl,
        getlineAll_eq, getlineDelim_append hl.2]
      simp only
      rw [ih (fun x hx => h x (List.mem_cons_of_mem _ hx))]


/-- `pat` is a prefix of `s` (character-wise). -/
def startsWithStr : Str → Str → Bool
  | [], _ => true
  | _ :: _, [] => false
  | p :: ps, c :: cs => p == c && startsWithStr ps cs

/-- `std::string::find(pat) != npos`: `pat` occurs as a contiguous
substring of `s`. -/
def containsSub (pat : Str) : Str → Bool
  | [] => startsWithStr pat []
  | c :: cs => startsWithStr pat (c :: cs) || containsSub pat cs

/-- The `Student` entity of `student.hh`: six string fields plus the
subject → score mapping. -/
structure Student where
  id : Str
  name : Str
  gender : Str
  class_id : Str
  phone : Str
  email : Str
  scores : List (Str × ℚ)
deriving DecidableEq, Repr

/-- `validate_id`: the regex `^\d{10}$` (the separate emptiness check of
the source is subsumed: an empty string has length 0 ≠ 10). -/
def validId (s : Str) : Bool := s.length == 10 && s.all isDigitChar

/-- `validate_name`: length between 2 and 20.  The source counts
`std::string::length()` units (bytes); the embedding counts characters —
the two agree on ASCII and differ only in where the 2–20 boundary falls
for multi-byte text (the open question flagged by the specification). -/
def validName (s : Str) : Bool := decide (2 ≤ s.length) && decide (s.length ≤ 20)

/-- `validate_gender`: exactly `"男"` or `"女"`. -/
def validGender (s : Str) : Bool := s == "男".data || s == "女".data

/-- `validate_class_id`: nonempty and at least 3 long (the length test
subsumes the emptiness test). -/
def validClass (s : Str) : Bool := decide (3 ≤ s.length)

/-- `validate_phone`: the regex `^1[3-9]\d{9}$`. -/
def validPhone (s : Str) : Bool :=
  match s with
  | c1 :: c2 :: rest =>
    c1 == '1' && decide (51 ≤ c2.toNat) && decide (c2.toNat ≤ 57)
      && rest.length == 9 && rest.all isDigitChar
  | _ => false

/-- Character class `[a-zA-Z0-9._%+-]` of the email regex. -/
def localChar (c : Char) : Bool :=
  c.isAlpha || c.isDigit || c == '.' || c == '_' || c == '%' || c == '+' || c == '-'

/-- Character class `[a-zA-Z0-9.-]` of the email regex. -/
def domainChar (c : Char) : Bool :=
  c.isAlpha || c.isDigit || c == '.' || c == '-'

/-- `validate_email`: the regex `^[a-zA-Z0-9._%+-]+@[a-zA-Z0-9.-]+\.[a-zA-Z]{2,}$`.
Neither character class contains `'@'`, so a match splits at the first
`'@'`; the `[a-zA-Z]{2,}$` tail contains no dot, so the `\.` of a match
is the last dot after the `'@'` — the matcher below decides exactly the
regex language. -/
def validEmail (s : Str) : Bool :=
  let l := s.takeWhile (fun c => !(c == '@'))
  let r := s.dropWhile (fun c => !(c == '@'))
  match r with
  | [] => false
  | _ :: dom =>
    !l.isEmpty && l.all localChar &&
      (let revDom := dom.reverse
       let tldRev := revDom.takeWhile (fun c => !(c == '.'))
       let rest := revDom.dropWhile (fun c => !(c == '.'))
       match rest with
       | [] => false
       | _ :: dRev =>
         decide (2 ≤ tldRev.length) && tldRev.all Char.isAlpha
           && !dRev.isEmpty && dRev.all domainChar)

/-- The validating constructor
`Student(id, name, gender, class_id, phone, email)`: each field is
validated (phone/email only when nonempty); any failure throws, modelled
by `none`.  A fresh record has an empty score mapping. -/
def mkStudent (i n g c p e : Str) : Option Student :=
  if validId i && validName n && validGender g && validClass c
      && (p.isEmpty || validPhone p) && (e.isEmpty || validEmail e)
  then some ⟨i, n, g, c, p, e, []⟩
  else none

/-- `operator[]=` on the association list: overwrite the entry of an
existing key, otherwise append. -/
def setEntry : List (Str × ℚ) → Str → ℚ → List (Str × ℚ)
  | [], k, v => [(k, v)]
  | (k0, v0) :: rest, k, v =>
    if k0 = k then (k0, v) :: rest else (k0, v0) :: setEntry rest k v

/-- `Student::set_score`: reject an empty subject or a score outside
[0, 100] (throw, modelled by `none`); otherwise insert or overwrite. -/
def Student.set_score (st : Student) (subject : Str) (score : ℚ) : Option Student :=
  if subject.isEmpty then none
  else if score < 0 ∨ 100 < score then none
  else some { st with scores := setEntry st.scores subject score }

/-- `Student::get_score`: the stored score, or the sentinel −1. -/
def Student.get_score (st : Student) (subject : Str) : ℚ :=
  match st.scores.find? (fun kv => kv.1 == subject) with
  | some kv => kv.2
  | none => -1

/-- `Student::get_average_score`: 0 on an empty mapping, otherwise the
sum of the scores divided by their number. -/
def Student.get_average_score (st : Student) : ℚ :=
  if st.scores.isEmpty then 0
  else (st.scores.map Prod.snd).sum / st.scores.length

/-- `Student::is_valid`: the four identity fields are nonempty (a
presence check only; format validators are not re-run). -/
def Student.is_valid (st : Student) : Bool :=
  !st.id.isEmpty && !st.name.isEmpty && !st.gender.isEmpty && !st.class_id.isEmpty

/-- Replace the first element satisfying `p` by `f` of it (the
`*it = …` / `it->…` idiom after a successful `std::find_if`). -/
def updateFirst (p : α → Bool) (f : α → α) : List α → List α
  | [] => []
  | x :: xs => if p x then f x :: xs else x :: updateFirst p f xs

/-- `StudentManagementSystem::add_student`: reject an incomplete record
or a duplicate id, otherwise append at the back. -/
def add_student (store : List Student) (st : Student) : List Student × Bool :=
  if !st.is_valid then (store, false)
  else
    match store.find? (fun s => s.id == st.id) with
    | some _ => (store, false)
    | none => (store ++ [st], true)

/-- `StudentManagementSystem::delete_student`: erase the first record
with the given id, if any. -/
def delete_student (store : List Student) (i : Str) : List Student × Bool :=
  match store.find? (fun s => s.id == i) with
  | none => (store, false)
  | some _ => (store.eraseP (fun s => s.id == i), true)

/-- `StudentManagementSystem::update_student`: locate the first record
with the given id; fail if absent or if the replacement is incomplete;
otherwise overwrite that record wholesale. -/
def update_student (store : List Student) (i : Str) (ns : Student) :
    List Student × Bool :=
  match store.find? (fun s => s.id == i) with
  | none => (store, false)
  | some _ =>
    if !ns.is_valid then (store, false)
    else (updateFirst (fun s => s.id == i) (fun _ => ns) store, true)

/-- `StudentManagementSystem::find_student_by_id`: first record with the
id, or `nullptr` (`none`). -/
def find_student_by_id (store : List Student) (i : Str) : Option Student :=
  store.find? (fun s => s.id == i)

/-- `StudentManagementSystem::find_students_by_name`: all records whose
name contains the argument as a substring, in store order. -/
def find_students_by_name (store : List Student) (n : Str) : List Student :=
  store.filter (fun s => containsSub n s.name)

/-- `StudentManagementSystem::find_students_by_name_exact`. -/
def find_students_by_name_exact (store : List Student) (n : Str) : List Student :=
  store.filter (fun s => s.name == n)

/-- `StudentManagementSystem::get_student_count`. -/
def get_student_count (store : List Student) : Nat := store.length

/-- `StudentManagementSystem::clear_all_students`. -/
def clear_all_students (_store : List Student) : List Student := []

/-- `StudentManagementSystem::delete_student_by_name`: with no match,
fail; with a unique match, remove every record sharing that match's id
(`remove_if` on id equality); with several matches the source prompts
for a 1-based index — that externally supplied `choice` is a parameter
here; an out-of-range choice fails. -/
def delete_student_by_name (store : List Student) (n : Str) (choice : Nat) :
    List Student × Bool :=
  let ms := find_students_by_name_exact store n
  match ms with
  | [] => (store, false)
  | [m] => (store.filter (fun s => !(s.id == m.id)), true)
  | _ =>
    if choice < 1 ∨ ms.length < choice then (store, false)
    else
      match ms[choice - 1]? with
      | none => (store, false)
      | some m => (store.filter (fun s => !(s.id == m.id)), true)

/-- The non-strict order induced by the comparator passed to
`std::list::sort` (`a.get_id() < b.get_id()`): `a ≤ b` iff not `b < a`. -/
def idLe (a b : Student) : Prop := lexLt b.id a.id = false

instance : DecidableRel idLe := fun a b =>
  inferInstanceAs (Decidable (lexLt b.id a.id = false))

instance : IsTotal Student idLe where
  total a b := by
    unfold idLe
    by_cases h : lexLt b.id a.id = true
    · right
      exact lexLt_asymm _ _ h
    · left
      simpa using h

instance : IsTrans Student idLe where
  trans a b c hab hbc := lexLt_le_trans a.id b.id c.id hab hbc

/-- `StudentManagementSystem::sort_students_by_id`: stable sort of the
roster by lexicographic id order (`std::list::sort` is stable, as is
insertion sort, so the two agree extensionally on every input). -/
def sort_students_by_id (store : List Student) : List Student :=
  List.insertionSort idLe store

/-- `StudentManagementSystem::set_student_score`: locate by id (fail if
absent), delegate to `Student::set_score`, fail if that throws. -/
def set_student_score (store : List Student) (i subject : Str) (score : ℚ) :
    List Student × Bool :=
  match store.find? (fun s => s.id == i) with
  | none => (store, false)
  | some s =>
    match s.set_score subject score with
    | none => (store, false)
    | some _ =>
      (updateFirst (fun t => t.id == i)
        (fun t => (t.set_score subject score).getD t) store, true)

/-- The header line `学号,姓名,性别,班级,电话,邮箱,成绩信息` written by
both save variants. -/
def headerLine : Str := "学号,姓名,性别,班级,电话,邮箱,成绩信息".data

/-- The marker `无成绩` written for a record with no scores. -/
def noScoresMarker : Str := "无成绩".data

/-- The token `学号` whose presence in the first line marks it as a
header on load. -/
def hdrToken : Str := "学号".data

/-- The scores field of a record's line:
`subject1:score1;subject2:score2;…`, or the no-scores marker. -/
def scoresBlob (scores : List (Str × ℚ)) : Str :=
  match scores with
  | [] => noScoresMarker
  | _ => joinSep ';' (scores.map (fun kv => kv.1 ++ ':' :: scoreToString kv.2))

/-- One record's CSV line:
`id,name,gender,class_id,phone,email,scores`. -/
def serializeStudent (st : Student) : Str :=
  st.id ++ ',' :: st.name ++ ',' :: st.gender ++ ',' :: st.class_id
    ++ ',' :: st.phone ++ ',' :: st.email ++ ',' :: scoresBlob st.scores

/-- `StudentManagementSystem::save_to_file`: the character stream
written on a successful open — the header line, then one line per
record in current store order, each line terminated by `'\n'`. -/
def save_to_file (store : List Student) : Str :=
  List.flatten ((headerLine :: store.map serializeStudent).map (fun l => l ++ ['\n']))

/-- `StudentManagementSystem::save_to_excel_file` (the "save sorted"
variant): first sorts the live roster in place, then writes the same
header and line format.  Returns the mutated roster together with the
written stream. -/
def save_to_excel_file (store : List Student) : List Student × Str :=
  let sorted := sort_students_by_id store
  (sorted, List.flatten ((headerLine :: sorted.map serializeStudent).map (fun l => l ++ ['\n'])))

/-- The six comma-delimited `std::getline` reads of a data line plus the
final read-to-end of the scores field; any failed read rejects the
line. -/
def parseFields (line : Str) :
    Option (Str × Str × Str × Str × Str × Str × Str) :=
  (getlineDelim ',' line).bind fun f1 =>
  (getlineDelim ',' f1.2).bind fun f2 =>
  (getlineDelim ',' f2.2).bind fun f3 =>
  (getlineDelim ',' f3.2).bind fun f4 =>
  (getlineDelim ',' f4.2).bind fun f5 =>
  (getlineDelim ',' f5.2).bind fun f6 =>
  (getlineDelim '\n' f6.2).bind fun f7 =>
  some (f1.1, f2.1, f3.1, f4.1, f5.1, f6.1, f7.1)

/-- The score-parsing loop of `load_from_file`: unless the blob is the
no-scores marker or empty, split on `';'`; for each entry, find the
first `':'` (no colon: entry ignored); `stof` the value part and
`set_score` it — a throw from either (invalid number, empty subject,
out-of-range score) skips just that entry. -/
def applyScoreEntry (s : Student) (entry : Str) : Student :=
  let subj := entry.takeWhile (fun c => !(c == ':'))
  let rest := entry.dropWhile (fun c => !(c == ':'))
  match rest with
  | [] => s
  | _ :: scoreStr =>
    match parseScore scoreStr with
    | none => s
    | some v =>
      match s.set_score subj v with
      | none => s
      | some s2 => s2

def applyScores (st : Student) (blob : Str) : Student :=
  if blob == noScoresMarker || blob.isEmpty then st
  else (getlineAll ';' blob).foldl applyScoreEntry st

/-- Processing of one nonempty data line: split the fields, run the
validating constructor (a throw skips the line), apply the scores blob,
and keep the record only if `is_valid`. -/
def loadLine (line : Str) : Option Student :=
  match parseFields line with
  | none => none
  | some (i, n, g, c, p, e, sb) =>
    match mkStudent i n g c p e with
    | none => none
    | some st0 =>
      let st := applyScores st0 sb
      if st.is_valid then some st else none

/-- The main loop of `load_from_file` over the data lines: empty lines
are skipped silently; a line that parses is appended (count incremented);
any failure increments the error counter and continues.  Returns the
records in file order with the final count and error counter. -/
def loadLinesGo : List Str → List Student × Nat × Nat
  | [] => ([], 0, 0)
  | l :: ls =>
    let rest := loadLinesGo ls
    if l.isEmpty then rest
    else
      match loadLine l with
      | some st => (st :: rest.1, rest.2.1 + 1, rest.2.2)
      | none => (rest.1, rest.2.1, rest.2.2 + 1)

/-- Header auto-detection of `load_from_file`: if the first line
contains the token `学号` it is skipped, otherwise the stream is rewound
and the first line is data. -/
def skipHeader (lines : List Str) : List Str :=
  match lines with
  | [] => []
  | l :: rest => if containsSub hdrToken l then rest else l :: rest

/-- Result of `load_from_file`: the roster after the call, the boolean
return value, and the `count` / `error_count` counters of the source. -/
structure LoadOutcome where
  store : List Student
  ok : Bool
  loaded : Nat
  errors : Nat
deriving DecidableEq, Repr

/-- `StudentManagementSystem::load_from_file`.  `none` models a file
that cannot be opened: the function returns `false` before touching the
roster.  On a successful open the roster is cleared first, the lines are
processed, and the call returns `count > 0`. -/
def load_from_file (store : List Student) (file : Option Str) : LoadOutcome :=
  match file with
  | none => ⟨store, false, 0, 0⟩
  | some content =>
    let lines := skipHeader (getlineAll '\n' content)
    let r := loadLinesGo lines
    ⟨r.1, decide (0 < r.2.1), r.2.1, r.2.2⟩

/-- Wellformedness of one score entry, as established by `set_score`,
together with the exact decimal representability that every `float`
value enjoys (its denominator is a power of two, hence divides a power
of ten). -/
def scoreEntryWf (kv : Str × ℚ) : Prop :=
  kv.1 ≠ [] ∧ 0 ≤ kv.2 ∧ kv.2 ≤ 100 ∧ (decDigits kv.2.den).isSome = true

/-- A record as reachable in the source: every C++ `Student` is built by
the validating constructor or mutated through the validating setters, so
each field satisfies its validator; every score entry went through
`set_score`; subject keys are distinct (the `unordered_map`
invariant). -/
def Student.Wf (st : Student) : Prop :=
  validId st.id = true ∧ validName st.name = true ∧ validGender st.gender = true
    ∧ validClass st.class_id = true ∧ (st.phone = [] ∨ validPhone st.phone = true)
    ∧ (st.email = [] ∨ validEmail st.email = true)
    ∧ (∀ kv ∈ st.scores, scoreEntryWf kv) ∧ (st.scores.map Prod.fst).Nodup

/-- The delimiter-freedom hypothesis of the round-trip claim: the value
contains none of `','`, `';'`, `':'`. -/
def fieldClean (s : Str) : Prop := ',' ∉ s ∧ ';' ∉ s ∧ ':' ∉ s

/-- All field values of the record (including subject names) are free of
the three delimiter characters. -/
def Student.NoDelims (st : Student) : Prop :=
  fieldClean st.id ∧ fieldClean st.name ∧ fieldClean st.gender
    ∧ fieldClean st.class_id ∧ fieldClean st.phone ∧ fieldClean st.email
    ∧ ∀ kv ∈ st.scores, fieldClean kv.1

/-- No field value of the record contains a newline character. -/
def Student.NoNL (st : Student) : Prop :=
  '\n' ∉ st.id ∧ '\n' ∉ st.name ∧ '\n' ∉ st.gender ∧ '\n' ∉ st.class_id
    ∧ '\n' ∉ st.phone ∧ '\n' ∉ st.email ∧ ∀ kv ∈ st.scores, '\n' ∉ kv.1

instance (kv : Str × ℚ) : Decidable (scoreEntryWf kv) := by
  unfold scoreEntryWf
  exact inferInstance

instance (st : Student) : Decidable st.Wf := by
  unfold Student.Wf
  exact inferInstance

instance (s : Str) : Decidable (fieldClean s) := by
  unfold fieldClean
  exact inferInstance

instance (st : Student) : Decidable st.NoDelims := by
  unfold Student.NoDelims
  exact inferInstance

instance (st : Student) : Decidable st.NoNL := by
  unfold Student.NoNL
  exact inferInstance

theorem fixedForm_chars (m k : Nat) :
    ∀ c ∈ fixedForm m k, isDigitChar c = true ∨ c = '.' := by
  intro c hc
  unfold fixedForm at hc
  by_cases hk : k = 0
  · rw [if_pos hk] at hc
    exact Or.inl (natToStr_all_digits _ c hc)
  · rw [if_neg hk] at hc
    simp only [List.mem_append, List.mem_cons] at hc
    rcases hc with h | h | h
    · exact Or.inl (natToStr_all_digits _ c h)
    · exact Or.inr h
    · exact Or.inl (padZeros_all_digits (natToStr_all_digits _) c h)

theorem sciForm_chars (m k : Nat) :
    ∀ c ∈ sciForm m k,
      isDigitChar c = true ∨ c = '.' ∨ c = 'e' ∨ c = '-' ∨ c = '+' := by
  intro c hc
  unfold sciForm at hc
  simp only [List.mem_append, List.mem_cons] at hc
  rcases hc with (h | h) | h | h
  · exact Or.inl (natToStr_all_digits _ c h)
  · by_cases hf : m % 10 ^ (numDigits m - 1) = 0
    · rw [if_pos hf] at h
      exact absurd h (List.not_mem_nil c)
    · rw [if_neg hf] at h
      rcases List.mem_cons.mp h with h | h
      · exact Or.inr (Or.inl h)
      · exact Or.inl (padZeros_all_digits (natToStr_all_digits _) c h)
  · exact Or.inr (Or.inr (Or.inl h))
  · by_cases he : ((numDigits m : Int) - 1 - (k : Int)) < 0
    · rw [if_pos he] at h
      rcases List.mem_cons.mp h with h | h
      · exact Or.inr (Or.inr (Or.inr (Or.inl h)))
      · exact Or.inl (padZeros_all_digits (natToStr_all_digits _) c h)
    · rw [if_neg he] at h
      rcases List.mem_cons.mp h with h | h
      · exact Or.inr (Or.inr (Or.inr (Or.inr h)))
      · exact Or.inl (padZeros_all_digits (natToStr_all_digits _) c h)

theorem roundedForm_chars (r t k : Nat) :
    ∀ c ∈ roundedForm r t k,
      isDigitChar c = true ∨ c = '.' ∨ c = 'e' ∨ c = '-' ∨ c = '+' := by
  intro c hc
  unfold roundedForm at hc
  split at hc
  · exact Or.inl (natToStr_all_digits _ c hc)
  · split at hc
    · rcases fixedForm_chars _ _ c hc with h | h
      · exact Or.inl h
      · exact Or.inr (Or.inl h)
    · exact sciForm_chars _ _ c hc

theorem scoreDigitsForm_chars (m k : Nat) :
    ∀ c ∈ scoreDigitsForm m k,
      isDigitChar c = true ∨ c = '.' ∨ c = 'e' ∨ c = '-' ∨ c = '+' := by
  intro c hc
  unfold scoreDigitsForm at hc
  by_cases hm : m = 0
  · rw [if_pos hm] at hc
    simp at hc
    subst hc
    left
    decide
  · rw [if_neg hm] at hc
    by_cases h6 : numDigits m ≤ 6
    · rw [if_pos h6] at hc
      by_cases hx : k ≤ numDigits m + 3
      · rw [if_pos hx] at hc
        rcases fixedForm_chars _ _ c hc with h | h
        · exact Or.inl h
        · exact Or.inr (Or.inl h)
      · rw [if_neg hx] at hc
        exact sciForm_chars _ _ c hc
    · rw [if_neg h6] at hc
      exact roundedForm_chars _ _ _ c hc

/-- Characters the score writer can emit: digits, the decimal point,
and for the scientific notation also the exponent marker and signs. -/
theorem scoreToString_chars (q : ℚ) :
    ∀ c ∈ scoreToString q,
      isDigitChar c = true ∨ c = '.' ∨ c = 'e' ∨ c = '-' ∨ c = '+' := by
  intro c hc
  unfold scoreToString at hc
  rcases hd : decDigits q.den with _ | k
  · rw [hd] at hc
    simp at hc
    subst hc
    left
    decide
  · rw [hd] at hc
    exact scoreDigitsForm_chars _ _ c hc

theorem scoreToString_not_mem {q : ℚ} {c : Char}
    (h1 : isDigitChar c = false) (h2 : c ≠ '.') (h3 : c ≠ 'e')
    (h4 : c ≠ '-') (h5 : c ≠ '+') : c ∉ scoreToString q := by
  intro hc
  rcases scoreToString_chars q c hc with h | h | h | h | h
  · rw [h1] at h
    exact absurd h (by simp)
  · exact h2 h
  · exact h3 h
  · exact h4 h
  · exact h5 h

theorem mem_joinSep {d : Char} {c : Char} :
    ∀ {ls : List Str}, c ∈ joinSep d ls → c = d ∨ ∃ l ∈ ls, c ∈ l := by
  intro ls
  induction ls with
  | nil => intro h; simp [joinSep] at h
  | cons x xs ih =>
    intro h
    cases xs with
    | nil =>
      rw [show joinSep d [x] = x from rfl] at h
      exact Or.inr ⟨x, by simp, h⟩
    | cons y ys =>
      rw [show joinSep d (x :: y :: ys) = x ++ d :: joinSep d (y :: ys) from rfl] at h
      rcases List.mem_append.mp h with h | h
      · exact Or.inr ⟨x, by simp, h⟩
      · rcases List.mem_cons.mp h with h | h
        · exact Or.inl h
        · rcases ih h with h | ⟨l, hl, hcl⟩
          · exact Or.inl h
          · exact Or.inr ⟨l, List.mem_cons_of_mem _ hl, hcl⟩

theorem mem_joinSep_head {d : Char} {c : Char} {x : Str} {xs : List Str}
    (h : c ∈ x) : c ∈ joinSep d (x :: xs) := by
  cases xs with
  | nil => exact h
  | cons y ys =>
    rw [show joinSep d (x :: y :: ys) = x ++ d :: joinSep d (y :: ys) from rfl]
    exact List.mem_append.mpr (Or.inl h)

/-- Characters of a record's scores field: apart from the two score
sub-delimiters, everything comes from a subject name or a printed
score. -/
theorem mem_scoresBlob {c : Char} {scores : List (Str × ℚ)}
    (h : c ∈ scoresBlob scores) :
    c ∈ noScoresMarker ∨ c = ';' ∨ c = ':'
      ∨ (∃ kv ∈ scores, c ∈ kv.1) ∨ ∃ kv ∈ scores, c ∈ scoreToString kv.2 := by
  unfold scoresBlob at h
  rcases hs : scores with _ | ⟨kv, rest⟩
  · rw [hs] at h
    exact Or.inl h
  · rw [hs] at h
    rcases mem_joinSep h with h | ⟨l, hl, hcl⟩
    · exact Or.inr (Or.inl h)
    · simp only [List.mem_map] at hl
      obtain ⟨kv2, hkv2, rfl⟩ := hl
      rcases List.mem_append.mp hcl with h | h
      · exact Or.inr (Or.inr (Or.inr (Or.inl ⟨kv2, hkv2, h⟩)))
      · rcases List.mem_cons.mp h with h | h
        · exact Or.inr (Or.inr (Or.inl h))
        · exact Or.inr (Or.inr (Or.inr (Or.inr ⟨kv2, hkv2, h⟩)))

theorem scoresBlob_ne_nil (scores : List (Str × ℚ)) : scoresBlob scores ≠ [] := by
  unfold scoresBlob
  rcases scores with _ | ⟨kv, rest⟩
  · decide
  · rcases rest with _ | ⟨kv2, rest2⟩
    · simp [joinSep]
    · rw [show joinSep ';' (((kv :: kv2 :: rest2).map
        (fun kv => kv.1 ++ ':' :: scoreToString kv.2)))
          = (kv.1 ++ ':' :: scoreToString kv.2)
            ++ ';' :: joinSep ';' ((kv2 :: rest2).map
              (fun kv => kv.1 ++ ':' :: scoreToString kv.2)) from rfl]
      simp

theorem scoresBlob_no_char {scores : List (Str × ℚ)} {c : Char}
    (hsubj : ∀ kv ∈ scores, c ∉ kv.1)
    (hmk : c ∉ noScoresMarker) (hsemi : c ≠ ';') (hcolon : c ≠ ':')
    (hdig : isDigitChar c = false) (hdot : c ≠ '.') (he : c ≠ 'e')
    (hminus : c ≠ '-') (hplus : c ≠ '+') :
    c ∉ scoresBlob scores := by
  intro hc
  rcases mem_scoresBlob hc with h | h | h | ⟨kv, hkv, h⟩ | ⟨kv, hkv, h⟩
  · exact hmk h
  · exact hsemi h
  · exact hcolon h
  · exact hsubj kv hkv h
  · exact scoreToString_not_mem hdig hdot he hminus hplus h

/-- A record built only through the validating constructor and setters
has nonempty identity fields, so `is_valid` holds. -/
theorem wf_is_valid {st : Student} (h : st.Wf) : st.is_valid = true := by
  obtain ⟨h1, h2, h3, h4, -, -, -, -⟩ := h
  unfold Student.is_valid
  have e1 : st.id.isEmpty = false := by
    rcases hid : st.id with _ | _
    · rw [hid] at h1
      exact absurd h1 (by decide)
    · rfl
  have e2 : st.name.isEmpty = false := by
    rcases hn : st.name with _ | _
    · rw [hn] at h2
      exact absurd h2 (by decide)
    · rfl
  have e3 : st.gender.isEmpty = false := by
    rcases hg : st.gender with _ | _
    · rw [hg] at h3
      exact absurd h3 (by decide)
    · rfl
  have e4 : st.class_id.isEmpty = false := by
    rcases hc : st.class_id with _ | _
    · rw [hc] at h4
      exact absurd h4 (by decide)
    · rfl
  rw [e1, e2, e3, e4]
  rfl

/-- The validating constructor accepts exactly the field tuple of a
wellformed record (and resets the score mapping). -/
theorem mkStudent_of_wf {st : Student} (h : st.Wf) :
    mkStudent st.id st.name st.gender st.class_id st.phone st.email
      = some ⟨st.id, st.name, st.gender, st.class_id, st.phone, st.email, []⟩ := by
  obtain ⟨h1, h2, h3, h4, h5, h6, -, -⟩ := h
  have hp : (st.phone.isEmpty || validPhone st.phone) = true := by
    rcases h5 with h5 | h5
    · rw [h5]
      rfl
    · rw [h5]
      simp
  have he : (st.email.isEmpty || validEmail st.email) = true := by
    rcases h6 with h6 | h6
    · rw [h6]
      rfl
    · rw [h6]
      simp
  unfold mkStudent
  rw [h1, h2, h3, h4, hp, he]
  rfl

/-- Writing to a fresh key appends the entry at the back. -/
theorem setEntry_fresh : ∀ {l : List (Str × ℚ)} {k : Str} {v : ℚ},
    k ∉ l.map Prod.fst → setEntry l k v = l ++ [(k, v)] := by
  intro l
  induction l with
  | nil => intro k v _; rfl
  | cons kv rest ih =>
    intro k v h
    obtain ⟨k0, v0⟩ := kv
    simp only [List.map_cons, List.mem_cons] at h
    push_neg at h
    unfold setEntry
    rw [if_neg (fun e => h.1 e.symm)]
    rw [ih h.2]
    rfl

/-- A `set_score` call with a nonempty subject and an in-range score
succeeds and writes through `setEntry`. -/
theorem set_score_of_ok (s : Student) (k : Str) (v : ℚ) (hke : k.isEmpty = false)
    (h0 : 0 ≤ v) (h100 : v ≤ 100) :
    s.set_score k v = some { s with scores := setEntry s.scores k v } := by
  unfold Student.set_score
  rw [if_neg (by rw [hke]; exact fun e => absurd e (by simp)),
    if_neg (by push_neg; exact ⟨h0, h100⟩)]

/-- Processing the printed entry of subject `k`, score `v` performs
exactly `set_score k v`. -/
theorem applyScoreEntry_entry (s : Student) (k : Str) (v : ℚ)
    (hk : k ≠ []) (hkc : ':' ∉ k) (h0 : 0 ≤ v) (h100 : v ≤ 100)
    (hfit : fitsSixSig v = true) :
    applyScoreEntry s (k ++ ':' :: scoreToString v)
      = { s with scores := setEntry s.scores k v } := by
  have hke : k.isEmpty = false := by
    rcases hkk : k with _ | _
    · exact absurd hkk hk
    · rfl
  have htake : (k ++ ':' :: scoreToString v).takeWhile (fun c => !(c == ':')) = k :=
    takeWhile_append_of_stop (fun c hc => by
        simp only [Bool.not_eq_true', beq_eq_false_iff_ne, ne_eq]
        intro e; subst e; exact hkc hc)
      (by simp)
  have hdrop : (k ++ ':' :: scoreToString v).dropWhile (fun c => !(c == ':'))
      = ':' :: scoreToString v :=
    dropWhile_append_of_stop (fun c hc => by
        simp only [Bool.not_eq_true', beq_eq_false_iff_ne, ne_eq]
        intro e; subst e; exact hkc hc)
      (by simp)
  unfold applyScoreEntry
  simp only [htake, hdrop, parseScore_scoreToString v h0 hfit,
    set_score_of_ok s k v hke h0 h100]

/-- Folding the printed score entries over a record replays the original
`set_score` calls: the mapping extends by exactly those entries. -/
theorem foldl_applyScoreEntry : ∀ (kvs : List (Str × ℚ)) (st : Student),
    (∀ kv ∈ kvs, scoreEntryWf kv) → (∀ kv ∈ kvs, ':' ∉ kv.1) →
    (∀ kv ∈ kvs, fitsSixSig kv.2 = true) →
    (∀ kv ∈ kvs, kv.1 ∉ st.scores.map Prod.fst) →
    (kvs.map Prod.fst).Nodup →
    ((kvs.map (fun kv => kv.1 ++ ':' :: scoreToString kv.2)).foldl applyScoreEntry st)
      = { st with scores := st.scores ++ kvs } := by
  intro kvs
  induction kvs with
  | nil => intro st _ _ _ _ _; simp
  | cons kv rest ih =>
    intro st hwf hcol hfit hfresh hnodup
    obtain ⟨k, v⟩ := kv
    have h1 := hwf (k, v) (by simp)
    obtain ⟨hk, h0, h100, -⟩ := h1
    simp only [List.map_cons, List.foldl_cons]
    rw [applyScoreEntry_entry st k v hk (hcol (k, v) (by simp)) h0 h100
      (hfit (k, v) (by simp))]
    rw [setEntry_fresh (hfresh (k, v) (by simp))]
    simp only [List.map_cons, List.nodup_cons] at hnodup
    rw [ih { st with scores := st.scores ++ [(k, v)] }
      (fun kv2 h2 => hwf kv2 (List.mem_cons_of_mem _ h2))
      (fun kv2 h2 => hcol kv2 (List.mem_cons_of_mem _ h2))
      (fun kv2 h2 => hfit kv2 (List.mem_cons_of_mem _ h2))
      (fun kv2 h2 => by
        simp only [List.map_append, List.map_cons, List.map_nil, List.mem_append,
          List.mem_cons, List.not_mem_nil]
        push_neg
        refine ⟨fun hm => hfresh kv2 (List.mem_cons_of_mem _ h2) hm, ?_, fun f => f⟩
        intro e
        exact hnodup.1 (e ▸ List.mem_map_of_mem Prod.fst h2))
      hnodup.2]
    simp

/-- Replaying a record's printed scores field on a freshly constructed
record restores exactly the original mapping. -/
theorem applyScores_scoresBlob (st0 : Student) (kvs : List (Str × ℚ))
    (hst : st0.scores = [])
    (hwf : ∀ kv ∈ kvs, scoreEntryWf kv) (hcl : ∀ kv ∈ kvs, fieldClean kv.1)
    (hfit : ∀ kv ∈ kvs, fitsSixSig kv.2 = true)
    (hnodup : (kvs.map Prod.fst).Nodup) :
    applyScores st0 (scoresBlob kvs) = { st0 with scores := kvs } := by
  cases kvs with
  | nil =>
    obtain ⟨i, n, g, c, p, e, sc⟩ := st0
    simp only at hst
    subst hst
    rfl
  | cons kv rest =>
    have hcolmem : ':' ∈ scoresBlob (kv :: rest) := by
      rw [show scoresBlob (kv :: rest) = joinSep ';' ((kv :: rest).map
        (fun kv => kv.1 ++ ':' :: scoreToString kv.2)) from rfl, List.map_cons]
      exact mem_joinSep_head (by simp)
    have hne : scoresBlob (kv :: rest) ≠ noScoresMarker := by
      intro e
      have : (':' : Char) ∈ noScoresMarker := e ▸ hcolmem
      exact absurd this (by decide)
    unfold applyScores
    rw [if_neg (by
      simp only [Bool.or_eq_true, beq_iff_eq, List.isEmpty_iff]
      push_neg
      exact ⟨hne, scoresBlob_ne_nil (kv :: rest)⟩)]
    have hsplit : getlineAll ';' (scoresBlob (kv :: rest))
        = (kv :: rest).map (fun kv => kv.1 ++ ':' :: scoreToString kv.2) := by
      rw [show scoresBlob (kv :: rest) = joinSep ';' ((kv :: rest).map
        (fun kv => kv.1 ++ ':' :: scoreToString kv.2)) from rfl]
      apply getlineAll_join_sep
      intro l hl
      simp only [List.mem_map] at hl
      obtain ⟨kv2, hkv2, rfl⟩ := hl
      refine ⟨by simp, ?_⟩
      intro hmem
      rcases List.mem_append.mp hmem with h | h
      · exact (hcl kv2 hkv2).2.1 h
      · rcases List.mem_cons.mp h with h | h
        · exact absurd h (by decide)
        · exact scoreToString_not_mem (by decide) (by decide) (by decide)
            (by decide) (by decide) h
    rw [hsplit, foldl_applyScoreEntry (kv :: rest) st0 hwf
      (fun kv2 h2 => (hcl kv2 h2).2.2) hfit (by rw [hst]; simp) hnodup]
    rw [hst]
    rfl

/-- Field extraction on a record's own line recovers the six fields and
the scores blob, provided no field value contains a comma or newline. -/
theorem parseFields_serializeStudent (st : Student) (hnd : st.NoDelims)
    (hnl : st.NoNL) :
    parseFields (serializeStudent st)
      = some (st.id, st.name, st.gender, st.class_id, st.phone, st.email,
          scoresBlob st.scores) := by
  obtain ⟨c1, c2, c3, c4, c5, c6, c7⟩ := hnd
  obtain ⟨n1, n2, n3, n4, n5, n6, n7⟩ := hnl
  have hbnl : '\n' ∉ scoresBlob st.scores :=
    scoresBlob_no_char (fun kv hk => n7 kv hk) (by decide) (by decide) (by decide)
      (by decide) (by decide) (by decide) (by decide) (by decide)
  unfold serializeStudent parseFields
  simp only [List.cons_append, List.append_assoc]
  simp only [getlineDelim_append c1.1, getlineDelim_append c2.1,
    getlineDelim_append c3.1, getlineDelim_append c4.1, getlineDelim_append c5.1,
    getlineDelim_append c6.1,
    getlineDelim_last (scoresBlob_ne_nil st.scores) hbnl, Option.some_bind]

/-- Loading the line written for a wellformed, delimiter-free record
yields that record back. -/
theorem loadLine_serializeStudent (st : Student) (hwf : st.Wf) (hnd : st.NoDelims)
    (hnl : st.NoNL) (hfit : ∀ kv ∈ st.scores, fitsSixSig kv.2 = true) :
    loadLine (serializeStudent st) = some st := by
  have happ := applyScores_scoresBlob
    ⟨st.id, st.name, st.gender, st.class_id, st.phone, st.email, []⟩ st.scores rfl
    hwf.2.2.2.2.2.2.1 hnd.2.2.2.2.2.2 hfit hwf.2.2.2.2.2.2.2
  unfold loadLine
  simp only [parseFields_serializeStudent st hnd hnl, mkStudent_of_wf hwf, happ,
    wf_is_valid hwf, if_true]

theorem serializeStudent_ne_nil (st : Student) : serializeStudent st ≠ [] := by
  unfold serializeStudent
  simp

/-- Every character of a record's line comes from a field value, a
comma, or the scores blob. -/
theorem mem_serializeStudent {c : Char} {st : Student} (h : c ∈ serializeStudent st) :
    c ∈ st.id ∨ c = ',' ∨ c ∈ st.name ∨ c ∈ st.gender ∨ c ∈ st.class_id
      ∨ c ∈ st.phone ∨ c ∈ st.email ∨ c ∈ scoresBlob st.scores := by
  unfold serializeStudent at h
  simp only [List.mem_append, List.mem_cons] at h
  tauto

theorem serializeStudent_no_nl (st : Student) (hnl : st.NoNL) :
    '\n' ∉ serializeStudent st := by
  obtain ⟨n1, n2, n3, n4, n5, n6, n7⟩ := hnl
  have hblob : '\n' ∉ scoresBlob st.scores :=
    scoresBlob_no_char (fun kv hk => n7 kv hk) (by decide) (by decide) (by decide)
      (by decide) (by decide) (by decide) (by decide) (by decide)
  intro hc
  rcases mem_serializeStudent hc with h | h | h | h | h | h | h | h
  · exact n1 h
  · exact absurd h (by decide)
  · exact n2 h
  · exact n3 h
  · exact n4 h
  · exact n5 h
  · exact n6 h
  · exact hblob h

/-- Loading the data lines written for a roster of wellformed records
reconstructs the roster in order, with no errors. -/
theorem loadLinesGo_map (sts : List Student)
    (h : ∀ st ∈ sts, loadLine (serializeStudent st) = some st) :
    loadLinesGo (sts.map serializeStudent) = (sts, sts.length, 0) := by
  induction sts with
  | nil => rfl
  | cons st rest ih =>
    have hne : (serializeStudent st).isEmpty = false := by
      rcases hs : serializeStudent st with _ | _
      · exact absurd hs (serializeStudent_ne_nil st)
      · rfl
    simp only [List.map_cons, loadLinesGo, ih (fun s hs2 => h s (List.mem_cons_of_mem _ hs2)),
      hne, h st (by simp), List.length_cons]
    simp

/-- Full save/clear/load round trip at the `LoadOutcome` level: the
written stream splits back into the header plus the data lines, the
header is detected and skipped, and every line reloads its record. -/
theorem load_save (sts : List Student)
    (hwf : ∀ st ∈ sts, st.Wf) (hnd : ∀ st ∈ sts, st.NoDelims)
    (hnl : ∀ st ∈ sts, st.NoNL)
    (hfit : ∀ st ∈ sts, ∀ kv ∈ st.scores, fitsSixSig kv.2 = true) :
    load_from_file (clear_all_students sts) (some (save_to_file sts))
      = ⟨sts, decide (0 < sts.length), sts.length, 0⟩ := by
  have hsplit : getlineAll '\n' (List.flatten ((headerLine :: sts.map serializeStudent).map
      (fun l => l ++ ['\n']))) = headerLine :: sts.map serializeStudent := by
    apply getlineAll_join_term
    intro l hl
    rcases List.mem_cons.mp hl with h | h
    · subst h
      decide
    · simp only [List.mem_map] at h
      obtain ⟨st, hst, rfl⟩ := h
      exact serializeStudent_no_nl st (hnl st hst)
  have hskip : skipHeader (headerLine :: sts.map serializeStudent)
      = sts.map serializeStudent := by
    have hct : containsSub hdrToken headerLine = true := by decide
    simp [skipHeader, hct]
  unfold load_from_file save_to_file
  simp only [hsplit, hskip,
    loadLinesGo_map sts (fun st hst =>
      loadLine_serializeStudent st (hwf st hst) (hnd st hst) (hnl st hst)
        (hfit st hst))]

/-- **C2** (amended): for every store of wellformed records whose field
values (including subject names) contain no delimiter character (no
`','`, `';'`, `':'`) and no newline character, and whose scores are all
values the 6-significant-digit stream output prints exactly (in fixed
notation), performing save to a file, then clear, then load from the
same file yields a store equal to the original: `count()` is preserved
and `find_by_id` answers identically on the reloaded and the original
store for every original record's id.  (`Wf` captures that in the
source every `Student` value has passed the validating constructor or
setters; the newline exclusion and the 6-significant-digit restriction
are the amendments, each forced by one half of the counterexample
below.) -/
theorem c2_round_trip (sts : List Student)
    (hwf : ∀ st ∈ sts, st.Wf) (hnd : ∀ st ∈ sts, st.NoDelims)
    (hnl : ∀ st ∈ sts, st.NoNL)
    (hfit : ∀ st ∈ sts, ∀ kv ∈ st.scores, fitsSixSig kv.2 = true) :
    (load_from_file (clear_all_students sts) (some (save_to_file sts))).store = sts
    ∧ get_student_count
        (load_from_file (clear_all_students sts) (some (save_to_file sts))).store
      = get_student_count sts
    ∧ ∀ st ∈ sts,
        find_student_by_id
          (load_from_file (clear_all_students sts) (some (save_to_file sts))).store
          st.id
        = find_student_by_id sts st.id := by
  rw [load_save sts hwf hnd hnl hfit]
  exact ⟨rfl, rfl, fun st _ => rfl⟩

/-- **C2** counterexample to the claim as stated, in two halves.  First:
a record whose field values contain none of `','`, `';'`, `':'`, yet
whose name contains a newline, corrupts the line-oriented file — after
save, clear, load the reloaded count is 0 while the original count is
1.  Second: a record with the reachable score 85.33333 (7 significant
digits, written back as `85.3333` by the precision-6 stream output)
does not survive save/clear/load even though every field is wellformed,
delimiter-free and newline-free. -/
theorem c2_counterexample :
    (let nlStudent : Student := ⟨"1234567890".data, ['a', 'b', '\n', 'c', 'd'],
      "男".data, "CS01".data, [], [], []⟩
    nlStudent.Wf ∧ nlStudent.NoDelims
      ∧ get_student_count (load_from_file (clear_all_students [nlStudent])
          (some (save_to_file [nlStudent]))).store
        ≠ get_student_count [nlStudent])
    ∧ (let precStudent : Student := ⟨"1234567890".data, "EF".data,
      "男".data, "CS01".data, [], [], [("Ma".data, mkRat 8533333 100000)]⟩
    precStudent.Wf ∧ precStudent.NoDelims ∧ precStudent.NoNL
      ∧ (load_from_file (clear_all_students [precStudent])
          (some (save_to_file [precStudent]))).store
        ≠ [precStudent]) := by
  constructor
  · decide
  · decide

/-- Witness for the round-trip theorem: a concrete two-record store with
integer and fractional scores round-trips exactly. -/
theorem c2_round_trip_witness :
    let s1 : Student := ⟨"1000000001".data, "张三".data, "男".data, "CS01".data,
      "13812345678".data, "ab@cd.com".data, [("Math".data, 95)]⟩
    let s2 : Student := ⟨"1000000002".data, "李四".data, "女".data, "CS02".data,
      [], [], [("英语".data, mkRat 171 2)]⟩
    (∀ st ∈ [s1, s2], st.Wf) ∧ (∀ st ∈ [s1, s2], st.NoDelims)
      ∧ (∀ st ∈ [s1, s2], st.NoNL)
      ∧ (∀ st ∈ [s1, s2], ∀ kv ∈ st.scores, fitsSixSig kv.2 = true)
      ∧ (load_from_file (clear_all_students [s1, s2])
          (some (save_to_file [s1, s2]))).store = [s1, s2] := by
  intro s1 s2
  refine ⟨by decide, by decide, by decide, by decide, ?_⟩
  exact (c2_round_trip [s1, s2] (by decide) (by decide) (by decide) (by decide)).1

/-- **C10**: when the file cannot be opened, `load` returns `false` with
the in-memory roster completely unchanged; the roster is cleared only
after a successful open — for an opened file the resulting roster is
independent of the roster held before the call. -/
theorem c10_load_open_failure (store : List Student) :
    load_from_file store none = ⟨store, false, 0, 0⟩
    ∧ ∀ content : Str,
        (load_from_file store (some content)).store
          = (load_from_file [] (some content)).store :=
  ⟨rfl, fun _ => rfl⟩

/-- The `count` counter of the load loop equals the number of nonempty
lines whose record parses. -/
theorem loadLinesGo_count_filter (ls : List Str) :
    (loadLinesGo ls).2.1
      = (ls.filter (fun l => !l.isEmpty && (loadLine l).isSome)).length := by
  induction ls with
  | nil => rfl
  | cons l rest ih =>
    cases he : l.isEmpty
    · cases hl : loadLine l
      · simp [loadLinesGo, List.filter_cons, he, hl, ih]
      · simp [loadLinesGo, List.filter_cons, he, hl, ih]
    · simp [loadLinesGo, List.filter_cons, he, ih]

/-- **C3**: `load` returns `true` iff at least one record was loaded; in
particular it returns `false` both when the file cannot be opened and
when the file opens but no line yields a valid record — the two cases
produce the same boolean and cannot be distinguished from the return
value. -/
theorem c3_load_ok_iff (store : List Student) (file : Option Str) :
    ((load_from_file store file).ok = true ↔ 0 < (load_from_file store file).loaded)
    ∧ (load_from_file store none).ok = false
    ∧ ∀ content : Str,
        ((skipHeader (getlineAll '\n' content)).filter
            (fun l => !l.isEmpty && (loadLine l).isSome)).length = 0 →
          (load_from_file store (some content)).ok = false := by
  refine ⟨?_, rfl, ?_⟩
  · cases file with
    | none => simp [load_from_file]
    | some content => simp [load_from_file]
  · intro content hzero
    have hcnt := loadLinesGo_count_filter (skipHeader (getlineAll '\n' content))
    rw [hzero] at hcnt
    simp [load_from_file, hcnt]

/-- Witness for the load-success signal: an unopenable file and a
one-line garbage file both yield `false`. -/
theorem c3_load_ok_iff_witness :
    (load_from_file [] none).ok = false
    ∧ (load_from_file [] (some "garbage".data)).ok = false := by
  refine ⟨(c3_load_ok_iff [] none).2.1, ?_⟩
  exact (c3_load_ok_iff [] (some "garbage".data)).2.2 "garbage".data (by decide)

/-- **C4** counterexample to "the plain save variant writes no header
line": saving the empty store through the plain variant produces
exactly the header line, not an empty stream. -/
theorem c4_counterexample :
    save_to_file [] = headerLine ++ ['\n'] ∧ save_to_file [] ≠ [] := by
  constructor
  · decide
  · decide

/-- **C4** (amended): both save variants always write the header line
before the records — the plain variant then writes the records in
current store order, the sorted variant in sorted order. -/
theorem c4_header_amended (store : List Student) :
    save_to_file store
      = headerLine ++ '\n'
          :: List.flatten ((store.map serializeStudent).map (fun l => l ++ ['\n']))
    ∧ (save_to_excel_file store).2
      = headerLine ++ '\n'
          :: List.flatten (((sort_students_by_id store).map serializeStudent).map
              (fun l => l ++ ['\n'])) := by
  constructor
  · simp [save_to_file]
  · simp [save_to_excel_file]

/-- **C5**: `add` fails with the store unchanged when the record is
incomplete (`is_valid` false) or some stored record already has its id;
otherwise it succeeds and appends the record at the back, preserving
the insertion order of all earlier records.  Adding the same id twice
therefore leaves `count()` at 1. -/
theorem c5_add_spec (store : List Student) (r : Student) :
    (r.is_valid = false → add_student store r = (store, false))
    ∧ ((∃ s ∈ store, s.id = r.id) → add_student store r = (store, false))
    ∧ (r.is_valid = true → (∀ s ∈ store, s.id ≠ r.id) →
        add_student store r = (store ++ [r], true))
    ∧ (r.is_valid = true →
        get_student_count (add_student (add_student [] r).1 r).1 = 1) := by
  refine ⟨?_, ?_, ?_, ?_⟩
  · intro hv
    unfold add_student
    rw [hv]
    rfl
  · intro ⟨s, hs, he⟩
    unfold add_student
    cases hv : (!r.is_valid)
    · have : store.find? (fun t => t.id == r.id) ≠ none := by
        intro hf
        exact absurd (by simpa using he) (by simpa using List.find?_eq_none.mp hf s hs)
      cases hf : store.find? (fun t => t.id == r.id) with
      | none => exact absurd hf this
      | some t => simp [hv, hf]
    · simp [hv]
  · intro hv hfresh
    unfold add_student
    rw [hv]
    have hf : store.find? (fun t => t.id == r.id) = none :=
      List.find?_eq_none.mpr (fun t ht => by simpa using hfresh t ht)
    rw [hf]
    rfl
  · intro hv
    have h1 : add_student [] r = ([r], true) := by
      unfold add_student
      rw [hv]
      rfl
    rw [h1]
    have h2 : add_student [r] r = ([r], false) := by
      unfold add_student
      rw [hv]
      simp [List.find?_cons]
    rw [h2]
    rfl

/-- Witness for the `add` contract: a valid record appends to the empty
store; re-adding it fails and `count()` stays at 1. -/
theorem c5_add_spec_witness :
    let r : Student := ⟨"1000000001".data, "张三".data, "男".data, "CS01".data,
      [], [], []⟩
    add_student [] r = ([r], true)
      ∧ add_student [r] r = ([r], false)
      ∧ get_student_count (add_student (add_student [] r).1 r).1 = 1 := by
  intro r
  refine ⟨(c5_add_spec [] r).2.2.1 (by decide) (by decide), ?_, ?_⟩
  · exact (c5_add_spec [r] r).2.1 ⟨r, by decide, rfl⟩
  · exact (c5_add_spec [] r).2.2.2 (by decide)

/-- `std::find_if` finds the head of the matching suffix when everything
before it fails the predicate. -/
theorem find?_first {α : Type} {p : α → Bool} {pre post : List α} {s : α}
    (hpre : ∀ t ∈ pre, p t = false) (hs : p s = true) :
    (pre ++ s :: post).find? p = some s := by
  induction pre with
  | nil => simp [List.find?_cons_of_pos, hs]
  | cons t ts ih =>
    rw [List.cons_append, List.find?_cons_of_neg _ (by simp [hpre t (by simp)])]
    exact ih (fun u hu => hpre u (List.mem_cons_of_mem _ hu))

/-- Writing through the iterator of that `find_if` replaces exactly the
found element. -/
theorem updateFirst_first {α : Type} {p : α → Bool} {f : α → α}
    {pre post : List α} {s : α}
    (hpre : ∀ t ∈ pre, p t = false) (hs : p s = true) :
    updateFirst p f (pre ++ s :: post) = pre ++ f s :: post := by
  induction pre with
  | nil => simp [updateFirst, hs]
  | cons t ts ih =>
    rw [List.cons_append, updateFirst, if_neg (by simp [hpre t (by simp)])]
    rw [ih (fun u hu => hpre u (List.mem_cons_of_mem _ hu))]
    rfl

/-- **C6**: `update` fails with the store unchanged when no record has
the given id or the replacement record is incomplete; otherwise the
first record with that id is replaced in its entirety by the new record
— in particular its old score mapping is discarded in favor of the new
record's — and every other record is untouched. -/
theorem c6_update_spec (store : List Student) (i : Str) (ns : Student) :
    ((∀ s ∈ store, s.id ≠ i) → update_student store i ns = (store, false))
    ∧ (ns.is_valid = false → update_student store i ns = (store, false))
    ∧ ∀ pre s post, store = pre ++ s :: post → s.id = i →
        (∀ t ∈ pre, t.id ≠ i) → ns.is_valid = true →
        update_student store i ns = (pre ++ ns :: post, true) := by
  refine ⟨?_, ?_, ?_⟩
  · intro hfresh
    unfold update_student
    rw [List.find?_eq_none.mpr (fun t ht => by simpa using hfresh t ht)]
  · intro hv
    unfold update_student
    cases hf : store.find? (fun s => s.id == i) with
    | none => rfl
    | some s => simp [hv]
  · intro pre s post hsplit hsid hpre hv
    subst hsplit
    unfold update_student
    rw [find?_first (fun t ht => by simpa using hpre t ht) (by simpa using hsid)]
    rw [updateFirst_first (fun t ht => by simpa using hpre t ht) (by simpa using hsid)]
    simp [hv]

/-- Witness for the `update` contract: replacing the second of two
records swaps in the new record (dropping the old score mapping) and
leaves the first record alone. -/
theorem c6_update_spec_witness :
    let s1 : Student := ⟨"1000000001".data, "张三".data, "男".data, "CS01".data,
      [], [], []⟩
    let s2 : Student := ⟨"1000000002".data, "李四".data, "女".data, "CS01".data,
      [], [], [("Math".data, 60)]⟩
    let ns : Student := ⟨"1000000002".data, "王五".data, "男".data, "CS02".data,
      [], [], []⟩
    update_student [s1, s2] "1000000002".data ns = ([s1, ns], true) := by
  intro s1 s2 ns
  exact (c6_update_spec [s1, s2] "1000000002".data ns).2.2 [s1] s2 []
    rfl (by decide) (by decide) (by decide)

/-- **C8**: a (successful) `save_sorted` first sorts the live in-memory
roster in place: the roster after the call is the sorted roster — a
permutation of the previous roster whose ids appear in non-decreasing
lexicographic order. -/
theorem c8_save_sorted_sorts (store : List Student) :
    (save_to_excel_file store).1 = sort_students_by_id store
    ∧ List.Sorted idLe (save_to_excel_file store).1
    ∧ (save_to_excel_file store).1.Perm store := by
  refine ⟨rfl, ?_, ?_⟩
  · exact List.sorted_insertionSort idLe store
  · exact List.perm_insertionSort idLe store

/-- **C9**: `average_score` returns 0 when the score mapping is empty —
the division is guarded by this special case — and otherwise returns
the arithmetic mean of the stored scores: their sum divided by their
number (so the mean times the count gives back the sum); for the score
values 80 and 90 the result is 85. -/
theorem c9_average_score (st : Student) :
    (st.scores = [] → st.get_average_score = 0)
    ∧ (st.scores ≠ [] →
        st.get_average_score
            = (st.scores.map Prod.snd).sum / (st.scores.length : ℚ)
          ∧ st.get_average_score * (st.scores.length : ℚ)
            = (st.scores.map Prod.snd).sum)
    ∧ (st.scores.map Prod.snd = [80, 90] → st.get_average_score = 85) := by
  refine ⟨?_, ?_, ?_⟩
  · intro h
    simp [Student.get_average_score, h]
  · intro h
    have he : st.scores.isEmpty = false := by
      rcases hs : st.scores with _ | _
      · exact absurd hs h
      · rfl
    have hlen : ((st.scores.length : ℚ)) ≠ 0 := by
      have hl0 : st.scores.length ≠ 0 := by
        intro e
        exact h (List.eq_nil_of_length_eq_zero e)
      exact_mod_cast hl0
    constructor
    · simp [Student.get_average_score, he]
    · simp only [Student.get_average_score, he, Bool.false_eq_true, if_false]
      exact div_mul_cancel₀ _ hlen
  · intro h
    have hlen : st.scores.length = 2 := by
      have := congrArg List.length h
      simpa using this
    have hsum : (st.scores.map Prod.snd).sum = 170 := by
      rw [h]
      norm_num
    have he : st.scores.isEmpty = false := by
      rcases hs : st.scores with _ | _
      · rw [hs] at hlen
        simp at hlen
      · rfl
    simp only [Student.get_average_score, he, Bool.false_eq_true, if_false, hsum, hlen]
    norm_num

/-- Witness for `average_score`: 0 on a record without scores, 85 on a
record with scores 80 and 90. -/
theorem c9_average_score_witness :
    let s0 : Student := ⟨"1000000001".data, "张三".data, "男".data, "CS01".data,
      [], [], []⟩
    let s2 : Student := ⟨"1000000002".data, "李四".data, "女".data, "CS01".data,
      [], [], [("A".data, 80), ("B".data, 90)]⟩
    s0.get_average_score = 0 ∧ s2.get_average_score = 85 := by
  intro s0 s2
  constructor
  · exact (c9_average_score s0).1 rfl
  · exact (c9_average_score s2).2.2 rfl

/-- The store-mutating operations of the system other than `update` and
`load`: `add`, the two delete forms (`deleteByName` carries the
operator's externally supplied disambiguation choice), per-record score
assignment, the sort, `clear`, and the two save variants (`saveFile`
does not mutate; `saveSorted` sorts in place). -/
inductive SafeOp where
  | add (r : Student)
  | deleteById (i : Str)
  | deleteByName (n : Str) (choice : Nat)
  | setScore (i subj : Str) (v : ℚ)
  | sortById
  | clearAll
  | saveFile
  | saveSorted

/-- Effect of one operation on the roster (the boolean outcomes are
dropped; they do not affect the stored state). -/
def applySafeOp (store : List Student) : SafeOp → List Student
  | .add r => (add_student store r).1
  | .deleteById i => (delete_student store i).1
  | .deleteByName n c => (delete_student_by_name store n c).1
  | .setScore i subj v => (set_student_score store i subj v).1
  | .sortById => sort_students_by_id store
  | .clearAll => clear_all_students store
  | .saveFile => store
  | .saveSorted => (save_to_excel_file store).1

/-- The roster reached by a sequence of operations from the empty
store. -/
def runOps (ops : List SafeOp) : List Student := ops.foldl applySafeOp []

/-- The id-uniqueness invariant: all stored ids are pairwise
distinct. -/
def distinctIds (store : List Student) : Prop :=
  (store.map (fun s => s.id)).Nodup

instance (store : List Student) : Decidable (distinctIds store) := by
  unfold distinctIds
  exact inferInstance

theorem distinctIds_sublist {s1 s2 : List Student} (hs : s1.Sublist s2)
    (h : distinctIds s2) : distinctIds s1 :=
  List.Nodup.sublist (hs.map (fun s => s.id)) h

theorem distinctIds_perm {s1 s2 : List Student} (hp : s1.Perm s2)
    (h : distinctIds s2) : distinctIds s1 := by
  unfold distinctIds at h ⊢
  exact (List.Perm.nodup_iff (hp.map (fun s => s.id))).mpr h

theorem distinctIds_add (store : List Student) (r : Student)
    (h : distinctIds store) : distinctIds (add_student store r).1 := by
  unfold add_student
  cases hv : (!r.is_valid)
  · cases hf : store.find? (fun s => s.id == r.id) with
    | some s => simpa using h
    | none =>
      have hnone : ∀ s ∈ store, s.id ≠ r.id := by
        intro s hs
        have := List.find?_eq_none.mp hf s hs
        simpa using this
      simp only [Bool.false_eq_true, if_false]
      unfold distinctIds at h ⊢
      rw [List.map_append, List.nodup_append]
      refine ⟨h, by simp, ?_⟩
      intro x hx
      simp only [List.mem_map] at hx
      obtain ⟨s, hs, rfl⟩ := hx
      simp only [List.map_cons, List.map_nil, List.mem_singleton]
      exact hnone s hs
  · simpa using h

theorem set_score_getD_id (t : Student) (s : Str) (v : ℚ) :
    ((t.set_score s v).getD t).id = t.id := by
  unfold Student.set_score
  split
  · rfl
  · split
    · rfl
    · rfl

theorem updateFirst_map_id {p : Student → Bool} {f : Student → Student}
    (hf : ∀ x, (f x).id = x.id) :
    ∀ l : List Student, (updateFirst p f l).map (fun s => s.id)
      = l.map (fun s => s.id) := by
  intro l
  induction l with
  | nil => rfl
  | cons x xs ih =>
    unfold updateFirst
    cases hp : p x
    · simp only [Bool.false_eq_true, if_false, List.map_cons, ih]
    · simp only [if_true, List.map_cons, hf x]

theorem distinctIds_deleteByName (store : List Student) (n : Str) (c : Nat)
    (h : distinctIds store) : distinctIds (delete_student_by_name store n c).1 := by
  simp only [delete_student_by_name]
  cases hms : find_students_by_name_exact store n with
  | nil => simpa using h
  | cons m rest =>
    cases rest with
    | nil =>
      simp only
      exact distinctIds_sublist (List.filter_sublist _) h
    | cons m2 rest2 =>
      simp only
      by_cases hc : c < 1 ∨ (m :: m2 :: rest2).length < c
      · rw [if_pos hc]
        exact h
      · rw [if_neg hc]
        cases hg : (m :: m2 :: rest2)[c - 1]? with
        | none => exact h
        | some m3 => exact distinctIds_sublist (List.filter_sublist _) h

theorem distinctIds_applySafeOp (store : List Student) (op : SafeOp)
    (h : distinctIds store) : distinctIds (applySafeOp store op) := by
  cases op with
  | add r => exact distinctIds_add store r h
  | deleteById i =>
    simp only [applySafeOp]
    unfold delete_student
    cases hf : store.find? (fun s => s.id == i) with
    | none => simpa using h
    | some s =>
      simp only
      exact distinctIds_sublist (List.eraseP_sublist _) h
  | deleteByName n c =>
    simp only [applySafeOp]
    exact distinctIds_deleteByName store n c h
  | setScore i subj v =>
    simp only [applySafeOp]
    unfold set_student_score
    cases hf : store.find? (fun s => s.id == i) with
    | none => simpa using h
    | some s =>
      cases hs : s.set_score subj v with
      | none =>
        simp only [hs]
        exact h
      | some s2 =>
        simp only [hs]
        unfold distinctIds at h ⊢
        rw [updateFirst_map_id (fun t => set_score_getD_id t subj v)]
        exact h
  | sortById => exact distinctIds_perm (List.perm_insertionSort idLe store) h
  | clearAll => simp [applySafeOp, clear_all_students, distinctIds]
  | saveFile => exact h
  | saveSorted => exact distinctIds_perm (List.perm_insertionSort idLe store) h

/-- **C1** (amended): every roster reachable from the empty store by any
sequence of `add`, `delete_by_id`, `delete_by_name`, `set_score`,
`sort_by_id`, `save`, `save_sorted`, `clear` operations has pairwise
distinct ids, so `find_by_id` has at most one match there.  (`update`
and `load` are excluded: the counterexample shows both can create
duplicate ids.) -/
theorem c1_distinct_ids (ops : List SafeOp) : distinctIds (runOps ops) := by
  have aux : ∀ (rest : List SafeOp) (store : List Student), distinctIds store →
      distinctIds (rest.foldl applySafeOp store) := by
    intro rest
    induction rest with
    | nil => intro store h; exact h
    | cons op more ih =>
      intro store h
      exact ih _ (distinctIds_applySafeOp store op h)
  exact aux ops [] (by simp [distinctIds])

/-- **C1** counterexample to the claim over the full operation set:
`update` replaces a record without checking the new record's id against
the rest of the roster, and `load` inserts file lines without a
duplicate check — both produce a roster with two records of the same
id. -/
theorem c1_counterexample :
    let r1 : Student := ⟨"1111111111".data, "张三".data, "男".data, "CS01".data,
      [], [], []⟩
    let r2 : Student := ⟨"2222222222".data, "李四".data, "女".data, "CS01".data,
      [], [], []⟩
    let r2x : Student := ⟨"2222222222".data, "王五".data, "男".data, "CS02".data,
      [], [], []⟩
    ¬ distinctIds (update_student (add_student (add_student [] r1).1 r2).1
        "1111111111".data r2x).1
    ∧ ¬ distinctIds (load_from_file []
        (some ("1000000001,张三,男,CS01,,,无成绩\n1000000001,张三,男,CS01,,,无成绩\n".data))).store := by
  decide

/-- The load loop is compositional: records, counts and error counters
over a concatenation are the concatenation/sums of the parts. -/
theorem loadLinesGo_append (xs ys : List Str) :
    (loadLinesGo (xs ++ ys)).1 = (loadLinesGo xs).1 ++ (loadLinesGo ys).1
    ∧ (loadLinesGo (xs ++ ys)).2.1 = (loadLinesGo xs).2.1 + (loadLinesGo ys).2.1
    ∧ (loadLinesGo (xs ++ ys)).2.2 = (loadLinesGo xs).2.2 + (loadLinesGo ys).2.2 := by
  induction xs with
  | nil => simp [loadLinesGo]
  | cons l ls ih =>
    obtain ⟨ih1, ih2, ih3⟩ := ih
    by_cases he : l.isEmpty = true
    · simp [loadLinesGo, he, ih1, ih2, ih3]
    · cases hl : loadLine l with
      | none =>
        simp [loadLinesGo, he, hl, ih1, ih2, ih3]
        omega
      | some st =>
        simp [loadLinesGo, he, hl, ih1, ih2, ih3]
        omega

/-- Over lines that all parse, the loop loads everything and counts no
errors. -/
theorem loadLinesGo_all_ok (zs : List Str)
    (h : ∀ l ∈ zs, l.isEmpty = false ∧ (loadLine l).isSome = true) :
    (loadLinesGo zs).1.length = zs.length
    ∧ (loadLinesGo zs).2.1 = zs.length ∧ (loadLinesGo zs).2.2 = 0 := by
  induction zs with
  | nil => simp [loadLinesGo]
  | cons l ls ih =>
    obtain ⟨he, hs⟩ := h l (by simp)
    obtain ⟨st, hst⟩ := Option.isSome_iff_exists.mp hs
    have hrest := ih (fun x hx => h x (List.mem_cons_of_mem _ hx))
    simp [loadLinesGo, he, hst, hrest.1, hrest.2.1, hrest.2.2]

/-- **C7**: load is best-effort per line — a data line whose record
fails construction-time validation is skipped with the error counter
incremented and the loop continues: one malformed line among N
well-formed lines yields a loaded count (and store size) of N with an
error counter of 1, never a total failure. -/
theorem c7_best_effort (xs ys : List Str) (b : Str)
    (hok : ∀ l ∈ xs ++ ys, l.isEmpty = false ∧ (loadLine l).isSome = true)
    (hbne : b.isEmpty = false) (hbad : loadLine b = none) :
    (loadLinesGo (xs ++ b :: ys)).2.1 = xs.length + ys.length
    ∧ (loadLinesGo (xs ++ b :: ys)).2.2 = 1
    ∧ (loadLinesGo (xs ++ b :: ys)).1.length = xs.length + ys.length := by
  have hx := loadLinesGo_all_ok xs
    (fun l hl => hok l (List.mem_append.mpr (Or.inl hl)))
  have hy := loadLinesGo_all_ok ys
    (fun l hl => hok l (List.mem_append.mpr (Or.inr hl)))
  have happ := loadLinesGo_append xs (b :: ys)
  have hbys : loadLinesGo (b :: ys)
      = ((loadLinesGo ys).1, (loadLinesGo ys).2.1, (loadLinesGo ys).2.2 + 1) := by
    simp [loadLinesGo, hbne, hbad]
  refine ⟨?_, ?_, ?_⟩
  · rw [happ.2.1, hbys]
    simp [hx.2.1, hy.2.1]
  · rw [happ.2.2, hbys]
    simp [hx.2.2, hy.2.2]
  · rw [happ.1, hbys]
    simp [List.length_append, hx.1, hy.1]

/-- Witness for best-effort loading: two well-formed lines around one
malformed line load 2 records with 1 error. -/
theorem c7_best_effort_witness :
    (loadLinesGo (["1000000001,张三,男,CS01,,,无成绩".data]
        ++ "oops".data :: ["1000000002,李四,女,CS01,,,无成绩".data])).2.1 = 2
    ∧ (loadLinesGo (["1000000001,张三,男,CS01,,,无成绩".data]
        ++ "oops".data :: ["1000000002,李四,女,CS01,,,无成绩".data])).2.2 = 1 := by
  have h := c7_best_effort ["1000000001,张三,男,CS01,,,无成绩".data]
    ["1000000002,李四,女,CS01,,,无成绩".data] "oops".data
    (by decide) (by decide) (by decide)
  exact ⟨h.1, h.2.1⟩
